import Mathlib

set_option maxHeartbeats 1000000

/-!
Verification of the process-scheduling simulator
(`src/process-scheduling-algorithms/main.cc`).

The C++ code is shallowly embedded: C++ `int` is modelled as `Int`
(the one place where the 32-bit range is semantically relevant, the
`std::numeric_limits<int>::max()` sentinel in the SJF scan, is kept as
the literal 2147483647), `bool` as `Bool`, `std::vector<Process>` as
`List Process`, `std::queue<std::size_t>` as `List Nat` (push = append
at the tail, pop = head), and the two `while` loops as fuel-indexed
recursions returning `Option` (fuel exhaustion = `none`).  `float`
metric accumulation is modelled over `Int`/`ℚ`; on the integer data of
the program the two agree wherever the claims look.
-/

/-- One simulated job, mirroring `ps::Process`.  The C++ field `at` is
renamed `atime` because `at` is a Lean keyword; every other field keeps
its source name. -/
structure Process where
  atime : Int
  bt : Int
  st : Int
  ct : Int
  tt : Int
  rt : Int
  wt : Int
  rbt : Int
  queued : Bool
  finished : Bool
deriving DecidableEq, Repr, Inhabited

/-- `ParseFile` builds each record as `{.at = at, .bt = bt, .rbt = bt}`;
all remaining fields are value-initialised (zero / false). -/
def mkProcess (a b : Int) : Process :=
  ⟨a, b, 0, 0, 0, 0, 0, b, false, false⟩

/-- The comparison key of `Scheduler::SortArrivalTimeAsceding`:
`std::sort` with comparer `lhs.at < rhs.at` produces a list that is
non-decreasing in arrival time. -/
def atLE (p q : Process) : Prop := p.atime ≤ q.atime

instance : DecidableRel atLE := fun p q =>
  inferInstanceAs (Decidable (p.atime ≤ q.atime))

/-- What the C++ standard guarantees about
`Scheduler::SortArrivalTimeAsceding` (`std::sort` with comparer
`lhs.at < rhs.at`): the result is a permutation of the input that is
non-decreasing in arrival time.  `std::sort` does not promise how ties
are ordered. -/
def sortSpec (l l' : List Process) : Prop :=
  l'.Perm l ∧ l'.Sorted atLE

/-- Deterministic model of `Scheduler::SortArrivalTimeAsceding`: a
stable insertion sort by arrival time.  (This is the behaviour libstdc++
exhibits on the small inputs of this program; it satisfies `sortSpec`.) -/
def sortByArrival (l : List Process) : List Process :=
  List.insertionSort atLE l

/-- `ps::ProcessAverageMetrics`, with the `float` averages modelled
exactly over `ℚ`. -/
structure AvgMetrics where
  tt : ℚ
  rt : ℚ
  wt : ℚ
deriving DecidableEq, Repr

/-! ## FCFS (`FCFSScheduler::Start`) -/

/-- Body of one iteration of the FCFS loop:
`st = (i == 0) ? at : max(at, prev.ct)`, `ct = st + bt`, then the three
derived metrics. -/
def fcfsBody (prev : Option Process) (p : Process) : Process :=
  let s := match prev with
    | none => p.atime
    | some q => max p.atime q.ct
  let c := s + p.bt
  { p with st := s, ct := c, tt := c - p.atime, rt := s - p.atime,
           wt := (c - p.atime) - p.bt }

/-- The FCFS loop over the (already sorted) process list, returning the
updated processes together with the three accumulated metric sums. -/
def fcfsLoop : Option Process → List Process → List Process × (Int × Int × Int)
  | _, [] => ([], (0, 0, 0))
  | prev, p :: ps =>
    let p' := fcfsBody prev p
    let r := fcfsLoop (some p') ps
    (p' :: r.1, (r.2.1 + p'.tt, r.2.2.1 + p'.rt, r.2.2.2 + p'.wt))

/-- The process list as left behind by `FCFSScheduler::Start`. -/
def fcfsProcs (l : List Process) : List Process :=
  (fcfsLoop none (sortByArrival l)).1

/-- `FCFSScheduler::Start`: sort by arrival, run the pass, divide each
metric sum by the process count. -/
def fcfsStart (l : List Process) : AvgMetrics :=
  ⟨((fcfsLoop none (sortByArrival l)).2.1 : ℚ) / (l.length : ℚ),
   ((fcfsLoop none (sortByArrival l)).2.2.1 : ℚ) / (l.length : ℚ),
   ((fcfsLoop none (sortByArrival l)).2.2.2 : ℚ) / (l.length : ℚ)⟩

/-! ## SJF (`SJFScheduler::Start`) -/

/-- The `std::numeric_limits<int>::max()` sentinel that initialises
`bt_threshold` in the SJF scan. -/
def INT_MAX : Int := 2147483647

/-- State of the SJF loop: the process list, `time_passed`,
`finished_count`, and the three metric accumulators. -/
structure SJFState where
  procs : List Process
  time : Int
  fc : Nat
  stt : Int
  srt : Int
  swt : Int
deriving DecidableEq, Repr

/-- The candidate scan inside the SJF loop (lines 106-120): walk the
whole list keeping `bt_threshold` and the current best candidate
(`pProcess`, here an index-value pair).  A process is skipped when
finished or not yet arrived; otherwise it replaces the best candidate
when its burst beats the threshold, or ties the threshold with an
earlier arrival than the current candidate. -/
def sjfScan (time : Int) :
    List Process → Nat → Int → Option (Nat × Process) → Option (Nat × Process)
  | [], _, _, best => best
  | p :: ps, i, thr, best =>
    if p.finished = true ∨ time < p.atime then
      sjfScan time ps (i + 1) thr best
    else
      let found : Bool := match best with
        | some b => if p.bt = thr then decide (p.atime < b.2.atime)
                    else decide (p.bt < thr)
        | none => decide (p.bt < thr)
      if found then sjfScan time ps (i + 1) p.bt (some (i, p))
      else sjfScan time ps (i + 1) thr best

/-- The scan as entered each SJF iteration: threshold `INT_MAX`, no
candidate. -/
def sjfSelect (time : Int) (l : List Process) : Option (Nat × Process) :=
  sjfScan time l 0 INT_MAX none

/-- Completion of the selected process (lines 127-140): `st = clock`,
`ct = st + bt`, derived metrics, `finished = true`. -/
def finishSJF (time : Int) (p : Process) : Process :=
  let c := time + p.bt
  { p with st := time, ct := c, tt := c - p.atime, rt := time - p.atime,
           wt := (c - p.atime) - p.bt, finished := true }

/-- One iteration of the SJF `while` body: run the scan; with no
candidate `time_passed++`; otherwise dispatch the candidate to
completion, advance the clock to its completion time, accumulate
metrics, and bump `finished_count`. -/
def sjfStep (s : SJFState) : SJFState :=
  match sjfSelect s.time s.procs with
  | none => { s with time := s.time + 1 }
  | some (i, p) =>
    let p' := finishSJF s.time p
    { s with procs := s.procs.set i p', time := p'.ct,
             stt := s.stt + p'.tt, srt := s.srt + p'.rt, swt := s.swt + p'.wt,
             fc := s.fc + 1 }

/-- Initial SJF state.  `SJFScheduler::Start` does not sort its list. -/
def sjfInit (l : List Process) : SJFState := ⟨l, 0, 0, 0, 0, 0⟩

/-- The SJF `while (finished_count < processes_count_)` loop, with
fuel. -/
def sjfLoop : Nat → SJFState → Option SJFState
  | 0, s => if s.fc < s.procs.length then none else some s
  | fuel + 1, s =>
    if s.fc < s.procs.length then sjfLoop fuel (sjfStep s) else some s

/-- `SJFScheduler::Start` up to (not including) the final division of
the metric sums. -/
def sjfRun (fuel : Nat) (l : List Process) : Option SJFState :=
  sjfLoop fuel (sjfInit l)

/-! ## RR (`RRScheduler::Start`) -/

/-- State of the RR loop: the (sorted) process list, `time_passed`, the
ready queue of indices, `finished_count`, and the metric accumulators. -/
structure RRState where
  procs : List Process
  time : Int
  queue : List Nat
  fc : Nat
  stt : Int
  srt : Int
  swt : Int
deriving DecidableEq, Repr, Inhabited

/-- Lines 177-201: first-dispatch handling
(`if (curr.rbt == curr.bt) { curr.st = max(time, curr.at); time = curr.st; }`),
then either a full quantum (`curr.rbt - quantum > 0`) or completion with
metric accumulation. -/
def rrDispatch (q : Int) (i : Nat) (s : RRState) : RRState :=
  let p := s.procs.getD i default
  let p1 := if p.rbt = p.bt then { p with st := max s.time p.atime } else p
  let t1 := if p.rbt = p.bt then max s.time p.atime else s.time
  if 0 < p1.rbt - q then
    { s with procs := s.procs.set i ({ p1 with rbt := p1.rbt - q }), time := t1 + q }
  else
    let t2 := t1 + p1.rbt
    let p2 :=
      { p1 with ct := t2, tt := t2 - p1.atime, rt := p1.st - p1.atime,
                wt := (t2 - p1.atime) - p1.bt, rbt := 0, finished := true }
    { s with procs := s.procs.set i p2, time := t2,
             stt := s.stt + p2.tt, srt := s.srt + p2.rt, swt := s.swt + p2.wt,
             fc := s.fc + 1 }

/-- The arrival sweep body (lines 203-214), iterating from `begin() + 1`
with running index `i`: skip `queued || finished`; enqueue (and flag
`queued`) any process whose arrival is at or before the current clock.
Returns the updated tail of the process list and the enqueued indices in
scan order. -/
def sweepFrom (time : Int) : List Process → Nat → List Process × List Nat
  | [], _ => ([], [])
  | p :: ps, i =>
    let r := sweepFrom time ps (i + 1)
    if p.queued = true ∨ p.finished = true then (p :: r.1, r.2)
    else if p.atime ≤ time then ({ p with queued := true } :: r.1, i :: r.2)
    else (p :: r.1, r.2)

/-- The arrival sweep applied to the RR state (process 0 is never
scanned: the C++ iteration starts at `begin() + 1`). -/
def rrSweep (s : RRState) : RRState :=
  match s.procs with
  | [] => s
  | p0 :: ps =>
    let r := sweepFrom s.time ps 1
    { s with procs := p0 :: r.1, queue := s.queue ++ r.2 }

/-- Lines 216-218: if the current process did not finish this step,
re-enqueue it at the tail. -/
def rrRequeue (i : Nat) (s : RRState) : RRState :=
  if (s.procs.getD i default).finished = true then s
  else { s with queue := s.queue ++ [i] }

/-- The recovery scan body (lines 221-233), iterating from `begin() + 1`:
skip finished processes; flag the first non-finished one as `queued` and
return its index together with the updated tail. -/
def recoverFrom : List Process → Nat → Option (Nat × List Process)
  | [], _ => none
  | p :: ps, i =>
    if p.finished = true then
      match recoverFrom ps (i + 1) with
      | none => none
      | some r => some (r.1, p :: r.2)
    else some (i, { p with queued := true } :: ps)

/-- Lines 220-234: when the ready queue is empty after the sweep and the
re-enqueue, enqueue the first non-finished process at index ≥ 1. -/
def rrRecover (s : RRState) : RRState :=
  if s.queue.isEmpty then
    match s.procs with
    | [] => s
    | p0 :: ps =>
      match recoverFrom ps 1 with
      | none => s
      | some r => { s with procs := p0 :: r.2, queue := [r.1] }
  else s

/-- One full RR iteration on the dequeued index `i` (the state already
has the head popped): dispatch, arrival sweep, conditional re-enqueue,
empty-queue recovery — in exactly that order. -/
def rrStep (q : Int) (i : Nat) (s : RRState) : RRState :=
  rrRecover (rrRequeue i (rrSweep (rrDispatch q i s)))

/-- The RR `while (finished_count < processes_count_)` loop, with fuel.
Popping `front()` of an empty queue, or an out-of-range index, is
undefined behaviour in the C++ and is modelled as `none`. -/
def rrLoop (q : Int) : Nat → RRState → Option RRState
  | 0, s => if s.fc < s.procs.length then none else some s
  | fuel + 1, s =>
    if s.fc < s.procs.length then
      match s.queue with
      | [] => none
      | i :: rest =>
        if i < s.procs.length then
          rrLoop q fuel (rrStep q i { s with queue := rest })
        else none
    else some s

/-- Initial RR state: sort by arrival, seed the ready queue with index 0,
clock 0. -/
def rrInit (l : List Process) : RRState :=
  ⟨sortByArrival l, 0, [0], 0, 0, 0, 0⟩

/-- `RRScheduler::Start` up to the final division of the metric sums. -/
def rrRun (q : Int) (fuel : Nat) (l : List Process) : Option RRState :=
  rrLoop q fuel (rrInit l)

/-! ## Input parsing (`ParseFile`) -/

/-- Splitting a character list at every space, keeping empty segments
(what repeated `std::getline(line_stream, token, ' ')` sees before its
end-of-stream handling). -/
def splitTokens : List Char → List Char → List (List Char)
  | [], acc => [acc.reverse]
  | c :: cs, acc =>
    if c = ' ' then acc.reverse :: splitTokens cs [] else splitTokens cs (c :: acc)

/-- Tokenisation of one line as performed by
`std::getline(line_stream, token, ' ')`: segments separated by single
spaces; a trailing separator does not produce a trailing empty token
(the stream is at end-of-file after consuming it), and an empty line
produces no token at all. -/
def tokenize (line : String) : List (List Char) :=
  if line.data = [] then []
  else if line.data.getLast? = some ' ' then (splitTokens line.data []).dropLast
  else splitTokens line.data []

/-- `std::stringstream{token} >> value` for `int`: skip leading
whitespace, read an optional sign and then a maximal digit run; fail
(`none`) when there is no digit.  On failure the C++ stream writes 0 to
the variable (C++11 semantics) — callers use `.getD 0`. -/
def parseIntTok (tok : List Char) : Option Int :=
  let cs := tok.dropWhile (fun c => c.isWhitespace)
  let r : Int × List Char := match cs with
    | '-' :: rest => (-1, rest)
    | '+' :: rest => (1, rest)
    | _ => (1, cs)
  let ds := r.2.takeWhile (fun c => c.isDigit)
  if ds.isEmpty then none
  else some (r.1 * ((ds.foldl (fun a c => a * 10 + (c.toNat - 48)) 0 : Nat) : Int))

/-- The `ParseFile` line loop.  `a`/`b` are the `at`/`bt` accumulator
variables declared outside the loop: a missing token leaves the previous
value in place, a present-but-unparsable token stores 0 (failed `>>`),
tokens beyond index 1 only trigger the error report.  Every line appends
exactly one record. -/
def parseLines : Int → Int → List String → List Process
  | _, _, [] => []
  | a, b, line :: rest =>
    let ts := tokenize line
    let a' := match ts.get? 0 with
      | some t => (parseIntTok t).getD 0
      | none => a
    let b' := match ts.get? 1 with
      | some t => (parseIntTok t).getD 0
      | none => b
    mkProcess a' b' :: parseLines a' b' rest

/-- `ParseFile` on the list of lines of a readable file (`at`/`bt` start
value-initialised to 0). -/
def parseFile (lines : List String) : List Process := parseLines 0 0 lines

/-! ## Shared facts and sample data -/

instance : IsTotal Process atLE := ⟨fun a b => le_total a.atime b.atime⟩

instance : IsTrans Process atLE := ⟨fun _ _ _ h h' => le_trans h h'⟩

instance (l l' : List Process) : Decidable (sortSpec l l') :=
  decidable_of_iff (l'.Perm l ∧ l'.Sorted atLE) Iff.rfl

/-- The worked input of the spec and of the repository README:
arrival/burst pairs (0,20), (0,10), (4,6), (4,8). -/
def sampleProcesses : List Process :=
  [mkProcess 0 20, mkProcess 0 10, mkProcess 4 6, mkProcess 4 8]

/-- Every line contributes exactly one record: `ParseFile` appends a
process unconditionally at the end of each line iteration. -/
theorem parseLines_length (a b : Int) (lines : List String) :
    (parseLines a b lines).length = lines.length := by
  induction lines generalizing a b with
  | nil => rfl
  | cons l rest ih => simp [parseLines, ih]

/-- A line whose two tokens both parse produces exactly the record of
its own values, independently of the accumulator state left behind by
earlier (possibly malformed) lines. -/
theorem parseLines_wf_cons (x y a b : Int) (line : String) (rest : List String)
    (t1 t2 : List Char) (ht : tokenize line = [t1, t2])
    (h1 : parseIntTok t1 = some a) (h2 : parseIntTok t2 = some b) :
    parseLines x y (line :: rest) = mkProcess a b :: parseLines a b rest := by
  simp [parseLines, ht, h1, h2]

/-- The record at the position of a well-formed line carries that line's
parsed values, whatever came before. -/
theorem parseLines_get_wf (line : String) (t1 t2 : List Char) (a b : Int) (post : List String)
    (ht : tokenize line = [t1, t2])
    (h1 : parseIntTok t1 = some a) (h2 : parseIntTok t2 = some b) :
    ∀ (pre : List String) (x y : Int),
      (parseLines x y (pre ++ line :: post)).get? pre.length = some (mkProcess a b) := by
  intro pre
  induction pre with
  | nil =>
    intro x y
    rw [List.nil_append, parseLines_wf_cons x y a b line post t1 t2 ht h1 h2]
    rfl
  | cons z pre ih =>
    intro x y
    simp only [List.cons_append, parseLines, List.length_cons]
    exact ih _ _

/-! ## Claim theorems: parsing (C9, C10) -/

/-- C9: a malformed line does not abort ingestion: for any file, every
line yields a record, and a well-formed line (two tokens, both numeric)
at any position — in particular after a malformed line — yields exactly
the record of its own parsed values. -/
theorem C9_parse_tolerant (pre post : List String) (line : String) (t1 t2 : List Char) (a b : Int)
    (ht : tokenize line = [t1, t2])
    (h1 : parseIntTok t1 = some a) (h2 : parseIntTok t2 = some b) :
    (parseFile (pre ++ line :: post)).length = pre.length + 1 + post.length ∧
    (parseFile (pre ++ line :: post)).get? pre.length = some (mkProcess a b) := by
  constructor
  · rw [parseFile, parseLines_length]
    simp
    omega
  · exact parseLines_get_wf line t1 t2 a b post ht h1 h2 pre 0 0

/-- Witness for `C9_parse_tolerant`: the spec's own scenario — the file
with the malformed line "0 abc" followed by the well-formed line "4 6"
still yields two records, the second one being (4,6). -/
theorem C9_parse_tolerant_witness :
    (parseFile (["0 abc"] ++ "4 6" :: [])).length = 2 ∧
    (parseFile (["0 abc"] ++ "4 6" :: [])).get? 1 = some (mkProcess 4 6) := by
  have h := C9_parse_tolerant ["0 abc"] [] "4 6" ['4'] ['6'] 4 6 (by decide) (by decide) (by decide)
  exact ⟨h.1, h.2⟩

/-- C10 fails on the code: after the well-formed line "7 9", the line
"0 abc" has a present-but-unparsable burst token, and the C++11 failed
extraction stores 0 in `bt` — the record is (0,0), not the (0,9) the
claim's carry-over rule would give. -/
theorem C10_counterexample :
    parseFile ["7 9", "0 abc"] = [mkProcess 7 9, mkProcess 0 0] ∧
    mkProcess 0 0 ≠ mkProcess 0 9 := by
  exact ⟨by decide, by decide⟩

/-- C10 (amended): `ParseFile` appends exactly one record per line and
never rejects a line; a *missing* token keeps the accumulator value of
the most recent line (e.g. an empty line repeats the previous record),
while a token that is present but fails to parse stores 0 (failed C++11
`>>` extraction), as the final concrete file shows: "5" keeps burst 9
from "7 9", while "0 abc" gets burst 0. -/
theorem C10_parse_per_line :
    (∀ lines, (parseFile lines).length = lines.length) ∧
    (∀ (a b : Int) (rest : List String),
      parseLines a b ("" :: rest) = mkProcess a b :: parseLines a b rest) ∧
    parseFile ["7 9", "5", "0 abc"] = [mkProcess 7 9, mkProcess 5 9, mkProcess 0 0] := by
  refine ⟨fun lines => parseLines_length 0 0 lines, fun a b rest => ?_, by decide⟩
  simp [parseLines, tokenize]

/-! ## Claim theorems: the worked example (C1, C2) -/

/-- C1 fails on the code: `SJFScheduler::Start` on the sample input
produces start/completion pairs (24,44), (0,10), (10,16), (16,24) in
input order — at time 10 the arrived jobs (4,6) and (4,8) beat (0,20),
contrary to the spec's trace (10,30), (0,10), (30,36), (36,44). -/
theorem C1_counterexample :
    (sjfRun 100 sampleProcesses).map (fun s => s.procs.map (fun p => (p.st, p.ct)))
      = some [(24, 44), (0, 10), (10, 16), (16, 24)] ∧
    some [(24, 44), (0, 10), (10, 16), (16, 24)]
      ≠ some [(10, 30), (0, 10), (30, 36), (36, 44)] := by
  exact ⟨by decide, by decide⟩

/-- C1 (amended): on the sample input the SJF engine runs (0,10) over
[0,10), then (4,6) over [10,16), then (4,8) over [16,24), and finally
(0,20) over [24,44). -/
theorem C1_sjf_schedule :
    (sjfRun 100 sampleProcesses).map
        (fun s => s.procs.map (fun p => (p.atime, p.bt, p.st, p.ct)))
      = some [(0, 20, 24, 44), (0, 10, 0, 10), (4, 6, 10, 16), (4, 8, 16, 24)] := by
  decide

/-- C2 fails on the code: `std::sort` guarantees only a permutation that
is non-decreasing in arrival time, and that guarantee does not force
stability — for the input [(0,20),(0,10)] the tie-reversing output
[(0,10),(0,20)] also satisfies the sort's contract. -/
theorem C2_counterexample :
    sortSpec [mkProcess 0 20, mkProcess 0 10] [mkProcess 0 10, mkProcess 0 20] ∧
    [mkProcess 0 10, mkProcess 0 20] ≠ [mkProcess 0 20, mkProcess 0 10] := by
  exact ⟨by decide, by decide⟩

/-- C2 (amended): the arrival sort is guaranteed only to sort by arrival
ascending (stability is implementation-defined for `std::sort`); under
the stable model of the implementation's observed behaviour the sample
input keeps its insertion order, and FCFS then gives completion times
20, 30, 36, 44 and averages turnaround 30.5, response 19.5, wait 19.5. -/
theorem C2_fcfs_input_order :
    (∀ l : List Process, sortSpec l (sortByArrival l)) ∧
    sortByArrival sampleProcesses = sampleProcesses ∧
    (fcfsProcs sampleProcesses).map Process.ct = [20, 30, 36, 44] ∧
    fcfsStart sampleProcesses = ⟨61/2, 39/2, 39/2⟩ := by
  refine ⟨fun l => ⟨List.perm_insertionSort atLE l, List.sorted_insertionSort atLE l⟩,
    by decide, by decide, ?_⟩
  have h1 : (fcfsLoop none (sortByArrival sampleProcesses)).2.1 = 122 := by decide
  have h2 : (fcfsLoop none (sortByArrival sampleProcesses)).2.2.1 = 78 := by decide
  have h3 : (fcfsLoop none (sortByArrival sampleProcesses)).2.2.2 = 78 := by decide
  rw [fcfsStart, h1, h2, h3]
  norm_num [sampleProcesses]

/-! ## RR phase lemmas (C3, C6) -/

/-- `List.getD` through `List.get?`. -/
theorem getD_eq_get? (l : List Process) (n : Nat) :
    l.getD n default = (l.get? n).getD default := by
  induction l generalizing n with
  | nil => cases n <;> rfl
  | cons a l ih => cases n with
    | zero => rfl
    | succ m => exact ih m

/-- If the recovery scan finds nothing, every scanned process is
finished. -/
theorem recoverFrom_none : ∀ (ps : List Process) (n : Nat),
    recoverFrom ps n = none → ∀ p ∈ ps, p.finished = true := by
  intro ps
  induction ps with
  | nil => intro n _ p hp; cases hp
  | cons p ps ih =>
    intro n h r hr
    by_cases hf : p.finished = true
    · rw [recoverFrom, if_pos hf] at h
      cases hrec : recoverFrom ps (n + 1) with
      | none =>
        rcases List.mem_cons.mp hr with rfl | hr
        · exact hf
        · exact ih (n + 1) hrec r hr
      | some r' => rw [hrec] at h; cases h
    · rw [recoverFrom, if_neg hf] at h; cases h

/-- Full characterisation of a successful recovery scan: it returns the
index (offset by the start index `n`) of the first non-finished process,
flags exactly that process as queued, and every process strictly before
it is finished. -/
theorem recoverFrom_some : ∀ (ps : List Process) (n j : Nat) (ps' : List Process),
    recoverFrom ps n = some (j, ps') →
    ∃ (k : Nat) (pk : Process), j = n + k ∧ ps.get? k = some pk ∧ pk.finished = false ∧
      ps' = ps.set k ({ pk with queued := true }) ∧
      (∀ (m : Nat) (pm : Process), m < k → ps.get? m = some pm → pm.finished = true) := by
  intro ps
  induction ps with
  | nil => intro n j ps' h; cases h
  | cons p ps ih =>
    intro n j ps' h
    by_cases hf : p.finished = true
    · rw [recoverFrom, if_pos hf] at h
      cases hrec : recoverFrom ps (n + 1) with
      | none => rw [hrec] at h; cases h
      | some r =>
        rw [hrec] at h
        cases h
        obtain ⟨k, pk, hk1, hk2, hk3, hk4, hk5⟩ := ih (n + 1) r.1 r.2 hrec
        refine ⟨k + 1, pk, by omega, by simpa using hk2, hk3, ?_, ?_⟩
        · rw [hk4]; rfl
        · intro m pm hm hget
          cases m with
          | zero => simp at hget; exact hget ▸ hf
          | succ mm => exact hk5 mm pm (by omega) (by simpa using hget)
    · rw [recoverFrom, if_neg hf] at h
      cases h
      exact ⟨0, p, by omega, rfl, by simpa using hf, by rfl,
        fun m pm hm _ => absurd hm (by omega)⟩

/-- C3: whenever the ready queue is empty after the sweep and re-enqueue
phases of an RR step, and a non-finished process exists at some index
≥ 1, the recovery phase scans in list order from index 1 (index 0 is
always excluded), skips finished processes, enqueues exactly the first
non-finished one, marks it queued, and does not advance the clock. -/
theorem C3_rr_recovery (s : RRState) (hq : s.queue = [])
    (j : Nat) (pj : Process) (hj1 : 1 ≤ j) (hjget : s.procs.get? j = some pj)
    (hjf : pj.finished = false) :
    ∃ (k : Nat) (pk : Process),
      1 ≤ k ∧ s.procs.get? k = some pk ∧ pk.finished = false ∧
      (∀ (m : Nat) (pm : Process), 1 ≤ m → m < k → s.procs.get? m = some pm →
        pm.finished = true) ∧
      (rrRecover s).queue = [k] ∧
      (rrRecover s).procs = s.procs.set k ({ pk with queued := true }) ∧
      (rrRecover s).time = s.time ∧ (rrRecover s).fc = s.fc := by
  obtain ⟨jj, rfl⟩ : ∃ jj, j = jj + 1 := ⟨j - 1, by omega⟩
  obtain ⟨p0, ps, hprocs⟩ : ∃ p0 ps, s.procs = p0 :: ps := by
    cases hp : s.procs with
    | nil => rw [hp] at hjget; cases hjget
    | cons a b => exact ⟨a, b, rfl⟩
  have hjget' : ps.get? jj = some pj := by rw [hprocs] at hjget; simpa using hjget
  cases hrec : recoverFrom ps 1 with
  | none =>
    exact absurd (recoverFrom_none ps 1 hrec pj (List.get?_mem hjget')) (by simp [hjf])
  | some r =>
    obtain ⟨k, pk, hk1, hk2, hk3, hk4, hk5⟩ := recoverFrom_some ps 1 r.1 r.2 hrec
    have hrr : rrRecover s = { s with procs := p0 :: r.2, queue := [r.1] } := by
      rw [rrRecover, if_pos (by simp [hq]), hprocs]
      simp only [hrec]
    refine ⟨r.1, pk, by omega, ?_, hk3, ?_, ?_, ?_, ?_, ?_⟩
    · rw [hprocs, hk1, Nat.add_comm 1 k]; simpa using hk2
    · intro m pm hm1 hmk hget
      obtain ⟨mm, rfl⟩ : ∃ mm, m = mm + 1 := ⟨m - 1, by omega⟩
      exact hk5 mm pm (by omega) (by rw [hprocs] at hget; simpa using hget)
    · rw [hrr]
    · rw [hrr, hprocs, hk4, hk1, Nat.add_comm 1 k]
      rfl
    · rw [hrr]
    · rw [hrr]

/-- The dispatched index is enqueued by the sweep when it is unqueued,
unfinished and has arrived by the sweep's clock. -/
theorem sweepFrom_idx_mem_of (time : Int) : ∀ (ps : List Process) (n k : Nat) (p : Process),
    ps.get? k = some p → p.queued = false → p.finished = false → p.atime ≤ time →
    (n + k) ∈ (sweepFrom time ps n).2 := by
  intro ps
  induction ps with
  | nil => intro n k p h; cases h
  | cons hd tl ih =>
    intro n k p hget hq hf ha
    cases k with
    | zero =>
      have : hd = p := by simpa using hget
      subst this
      rw [sweepFrom, if_neg (by simp [hq, hf]), if_pos ha]
      simp
    | succ kk =>
      have hmem := ih (n + 1) kk p (by simpa using hget) hq hf ha
      have : n + (kk + 1) = (n + 1) + kk := by omega
      rw [this, sweepFrom]
      by_cases h1 : hd.queued = true ∨ hd.finished = true
      · rw [if_pos h1]; exact hmem
      · rw [if_neg h1]
        by_cases h2 : hd.atime ≤ time
        · rw [if_pos h2]; exact List.mem_cons_of_mem _ hmem
        · rw [if_neg h2]; exact hmem

/-- The sweep changes only `queued` flags: the `finished` field is
preserved position by position. -/
theorem sweepFrom_get_finished (time : Int) : ∀ (ps : List Process) (n k : Nat),
    ((sweepFrom time ps n).1.get? k).map Process.finished
      = (ps.get? k).map Process.finished := by
  intro ps
  induction ps with
  | nil => intro n k; rfl
  | cons hd tl ih =>
    intro n k
    rw [sweepFrom]
    by_cases h1 : hd.queued = true ∨ hd.finished = true
    · rw [if_pos h1]
      cases k with
      | zero => rfl
      | succ kk => simpa using ih (n + 1) kk
    · rw [if_neg h1]
      by_cases h2 : hd.atime ≤ time
      · rw [if_pos h2]
        cases k with
        | zero => rfl
        | succ kk => simpa using ih (n + 1) kk
      · rw [if_neg h2]
        cases k with
        | zero => rfl
        | succ kk => simpa using ih (n + 1) kk

/-- The sweep does not change the `finished` flag of any position of the
process list, expressed at state level. -/
theorem rrSweep_getD_finished (s : RRState) (i : Nat) :
    ((rrSweep s).procs.getD i default).finished = (s.procs.getD i default).finished := by
  cases hp : s.procs with
  | nil =>
    have h : rrSweep s = s := by rw [rrSweep, hp]
    rw [h, hp]
  | cons p0 ps =>
    have hsw : (rrSweep s).procs = p0 :: (sweepFrom s.time ps 1).1 := by
      rw [rrSweep, hp]
    rw [hsw]
    cases i with
    | zero => rfl
    | succ ii =>
      rw [getD_eq_get?, getD_eq_get?]
      simp only [List.get?_cons_succ]
      have hmap := sweepFrom_get_finished s.time ps 1 ii
      cases hx : ps.get? ii with
      | none =>
        rw [hx] at hmap
        simp only [Option.map_none'] at hmap
        rw [Option.map_eq_none'] at hmap
        rw [hmap]
      | some x =>
        rw [hx] at hmap
        simp only [Option.map_some'] at hmap
        cases hy : (sweepFrom s.time ps 1).1.get? ii with
        | none => rw [hy] at hmap; cases hmap
        | some y =>
          rw [hy] at hmap
          simp only [Option.map_some', Option.some.injEq] at hmap
          simpa using hmap

/-- C6: in an RR step, the arrival sweep runs once, compares arrivals
against the clock as already advanced by the dispatch phase, and runs
before the re-enqueue of the preempted current process: any process
(index ≥ 1, unqueued, unfinished) whose arrival falls within or at the
end of the slice just executed ends up in the queue ahead of the resumed
current process, and no phase after the dispatch advances the clock. -/
theorem C6_rr_sweep_order (q : Int) (i : Nat) (s0 : RRState)
    (j : Nat) (pj : Process)
    (hcur : ((rrDispatch q i s0).procs.getD i default).finished = false)
    (hj1 : 1 ≤ j) (hget : (rrDispatch q i s0).procs.get? j = some pj)
    (hqd : pj.queued = false) (hf : pj.finished = false)
    (harr : pj.atime ≤ (rrDispatch q i s0).time) :
    (rrStep q i s0).time = (rrDispatch q i s0).time ∧
    ∃ front, (rrStep q i s0).queue = front ++ [i] ∧ j ∈ front := by
  obtain ⟨jj, rfl⟩ : ∃ jj, j = jj + 1 := ⟨j - 1, by omega⟩
  obtain ⟨p0, ps, hprocs⟩ : ∃ p0 ps, (rrDispatch q i s0).procs = p0 :: ps := by
    cases hp : (rrDispatch q i s0).procs with
    | nil => rw [hp] at hget; cases hget
    | cons a b => exact ⟨a, b, rfl⟩
  have hget' : ps.get? jj = some pj := by rw [hprocs] at hget; simpa using hget
  have hsw : rrSweep (rrDispatch q i s0) =
      { rrDispatch q i s0 with
        procs := p0 :: (sweepFrom (rrDispatch q i s0).time ps 1).1,
        queue := (rrDispatch q i s0).queue
                   ++ (sweepFrom (rrDispatch q i s0).time ps 1).2 } := by
    rw [rrSweep, hprocs]
  have hmem : (1 + jj) ∈ (sweepFrom (rrDispatch q i s0).time ps 1).2 :=
    sweepFrom_idx_mem_of _ ps 1 jj pj hget' hqd hf harr
  have hfin2 : ((rrSweep (rrDispatch q i s0)).procs.getD i default).finished = false := by
    rw [rrSweep_getD_finished]
    exact hcur
  have hrq : rrRequeue i (rrSweep (rrDispatch q i s0)) =
      { rrSweep (rrDispatch q i s0) with
        queue := (rrSweep (rrDispatch q i s0)).queue ++ [i] } := by
    rw [rrRequeue, if_neg (by rw [hfin2]; simp)]
  have hne : ((rrSweep (rrDispatch q i s0)).queue ++ [i]).isEmpty = false := by
    simp
  have hrec : rrRecover (rrRequeue i (rrSweep (rrDispatch q i s0))) =
      rrRequeue i (rrSweep (rrDispatch q i s0)) := by
    rw [rrRecover, if_neg (by rw [hrq]; simp [hne])]
  constructor
  · rw [rrStep, hrec, hrq, hsw]
  · refine ⟨(rrDispatch q i s0).queue ++ (sweepFrom (rrDispatch q i s0).time ps 1).2,
      ?_, ?_⟩
    · rw [rrStep, hrec, hrq, hsw]
    · exact List.mem_append_right _ (by rw [Nat.add_comm 1 jj] at hmem; exact hmem)

/-- A concrete RR state for exercising the recovery phase: queue empty,
process 1 finished, process 2 not yet arrived and unfinished. -/
def c3State : RRState :=
  ⟨[mkProcess 0 4, { mkProcess 9 3 with queued := true, finished := true }, mkProcess 12 2],
   7, [], 1, 0, 0, 0⟩

/-- Witness for `C3_rr_recovery` at `c3State`: the recovery enqueues the
first non-finished index ≥ 1 (here 2) and leaves the clock at 7. -/
theorem C3_rr_recovery_witness :
    ∃ (k : Nat) (pk : Process),
      1 ≤ k ∧ c3State.procs.get? k = some pk ∧ pk.finished = false ∧
      (∀ (m : Nat) (pm : Process), 1 ≤ m → m < k → c3State.procs.get? m = some pm →
        pm.finished = true) ∧
      (rrRecover c3State).queue = [k] ∧
      (rrRecover c3State).procs = c3State.procs.set k ({ pk with queued := true }) ∧
      (rrRecover c3State).time = c3State.time ∧ (rrRecover c3State).fc = c3State.fc :=
  C3_rr_recovery c3State rfl 2 (mkProcess 12 2) (by decide) (by decide) (by decide)

/-- A concrete RR state for the sweep-ordering theorem: process 0 is
mid-run (remaining burst 6 of 10), process 1 arrives at time 3, inside
the slice `[4,6)` about to be executed. -/
def c6State : RRState :=
  ⟨[{ mkProcess 0 10 with rbt := 6 }, mkProcess 3 4], 4, [], 0, 0, 0, 0⟩

/-- Witness for `C6_rr_sweep_order` at `c6State` with quantum 2,
current index 0 and arriving index 1. -/
theorem C6_rr_sweep_order_witness :
    (rrStep 2 0 c6State).time = (rrDispatch 2 0 c6State).time ∧
    ∃ front, (rrStep 2 0 c6State).queue = front ++ [0] ∧ 1 ∈ front :=
  C6_rr_sweep_order 2 0 c6State 1 (mkProcess 3 4) (by decide) (by decide) (by decide)
    (by decide) (by decide) (by decide)

/-! ## FCFS structure lemmas (C5, C7) -/

/-- The FCFS pass preserves arrival times position by position. -/
theorem fcfsLoop_map_atime : ∀ (l : List Process) (prev : Option Process),
    ((fcfsLoop prev l).1).map Process.atime = l.map Process.atime := by
  intro l
  induction l with
  | nil => intro prev; rfl
  | cons p ps ih =>
    intro prev
    simp only [fcfsLoop, List.map_cons, ih]
    constructor

/-- The FCFS pass preserves burst times position by position. -/
theorem fcfsLoop_map_bt : ∀ (l : List Process) (prev : Option Process),
    ((fcfsLoop prev l).1).map Process.bt = l.map Process.bt := by
  intro l
  induction l with
  | nil => intro prev; rfl
  | cons p ps ih =>
    intro prev
    simp only [fcfsLoop, List.map_cons, ih]
    constructor

/-- Every process produced by the FCFS pass satisfies the derived-field
identities of lines 70-74. -/
theorem fcfsLoop_fields : ∀ (l : List Process) (prev : Option Process) (p : Process),
    p ∈ (fcfsLoop prev l).1 →
    p.ct = p.st + p.bt ∧ p.tt = p.ct - p.atime ∧
    p.rt = p.st - p.atime ∧ p.wt = p.tt - p.bt := by
  intro l
  induction l with
  | nil => intro prev p hp; cases hp
  | cons hd tl ih =>
    intro prev p hp
    simp only [fcfsLoop] at hp
    rcases List.mem_cons.mp hp with rfl | hp
    · refine ⟨rfl, rfl, rfl, ?_⟩
      simp [fcfsBody]
    · exact ih (some (fcfsBody prev hd)) p hp

/-- The chain recurrence of the FCFS pass: each element's start time is
the max of its own arrival and the previous element's completion. -/
theorem fcfsLoop_chain : ∀ (l : List Process) (ph : Process),
    List.Chain' (fun a b => b.st = max b.atime a.ct) (ph :: (fcfsLoop (some ph) l).1) := by
  intro l
  induction l with
  | nil => intro ph; exact List.chain'_singleton ph
  | cons p ps ih =>
    intro ph
    have hunf : (fcfsLoop (some ph) (p :: ps)).1
        = fcfsBody (some ph) p :: (fcfsLoop (some (fcfsBody (some ph) p)) ps).1 := rfl
    rw [hunf, List.chain'_cons]
    exact ⟨by simp [fcfsBody], ih (fcfsBody (some ph) p)⟩

/-- The metric accumulators of the FCFS loop equal the sums of the
derived fields over the output list. -/
theorem fcfsLoop_sums : ∀ (l : List Process) (prev : Option Process),
    (fcfsLoop prev l).2.1 = (((fcfsLoop prev l).1).map Process.tt).sum ∧
    (fcfsLoop prev l).2.2.1 = (((fcfsLoop prev l).1).map Process.rt).sum ∧
    (fcfsLoop prev l).2.2.2 = (((fcfsLoop prev l).1).map Process.wt).sum := by
  intro l
  induction l with
  | nil => intro prev; exact ⟨rfl, rfl, rfl⟩
  | cons p ps ih =>
    intro prev
    obtain ⟨h1, h2, h3⟩ := ih (some (fcfsBody prev p))
    simp only [fcfsLoop, List.map_cons, List.sum_cons, h1, h2, h3]
    omega

/-- C5: on an arrival-sorted input the FCFS engine keeps arrivals and
bursts in place, starts the first process at its own arrival, starts
each later process at `max(its arrival, previous completion)`, completes
each at `start + burst`, and returns each metric sum divided by the
process count. -/
theorem C5_fcfs_recurrence (l : List Process) (hs : l.Sorted atLE) :
    (fcfsProcs l).map Process.atime = l.map Process.atime ∧
    (fcfsProcs l).map Process.bt = l.map Process.bt ∧
    (∀ p, (fcfsProcs l).get? 0 = some p → p.st = p.atime) ∧
    List.Chain' (fun a b => b.st = max b.atime a.ct) (fcfsProcs l) ∧
    (∀ p ∈ fcfsProcs l, p.ct = p.st + p.bt) ∧
    fcfsStart l = ⟨(((fcfsProcs l).map Process.tt).sum : ℚ) / (l.length : ℚ),
                   (((fcfsProcs l).map Process.rt).sum : ℚ) / (l.length : ℚ),
                   (((fcfsProcs l).map Process.wt).sum : ℚ) / (l.length : ℚ)⟩ := by
  have hsort : sortByArrival l = l := hs.insertionSort_eq
  refine ⟨?_, ?_, ?_, ?_, ?_, ?_⟩
  · rw [fcfsProcs, hsort, fcfsLoop_map_atime]
  · rw [fcfsProcs, hsort, fcfsLoop_map_bt]
  · intro p hp
    rw [fcfsProcs, hsort] at hp
    cases l with
    | nil => cases hp
    | cons hd tl =>
      simp only [fcfsLoop, List.get?_cons_zero, Option.some.injEq] at hp
      subst hp
      rfl
  · rw [fcfsProcs, hsort]
    cases l with
    | nil => exact List.chain'_nil
    | cons hd tl =>
      have hunf : (fcfsLoop none (hd :: tl)).1
          = fcfsBody none hd :: (fcfsLoop (some (fcfsBody none hd)) tl).1 := rfl
      rw [hunf]
      exact fcfsLoop_chain tl (fcfsBody none hd)
  · intro p hp
    exact (fcfsLoop_fields (sortByArrival l) none p (by rwa [fcfsProcs] at hp)).1
  · obtain ⟨h1, h2, h3⟩ := fcfsLoop_sums (sortByArrival l) none
    rw [fcfsStart, fcfsProcs, h1, h2, h3]

/-- Witness for `C5_fcfs_recurrence` at the sample input (which is
already arrival-sorted). -/
theorem C5_fcfs_recurrence_witness :
    sampleProcesses.Sorted atLE ∧
    ((fcfsProcs sampleProcesses).map Process.atime = sampleProcesses.map Process.atime ∧
     (fcfsProcs sampleProcesses).map Process.bt = sampleProcesses.map Process.bt ∧
     (∀ p, (fcfsProcs sampleProcesses).get? 0 = some p → p.st = p.atime) ∧
     List.Chain' (fun a b => b.st = max b.atime a.ct) (fcfsProcs sampleProcesses) ∧
     (∀ p ∈ fcfsProcs sampleProcesses, p.ct = p.st + p.bt) ∧
     fcfsStart sampleProcesses =
       ⟨(((fcfsProcs sampleProcesses).map Process.tt).sum : ℚ) / (sampleProcesses.length : ℚ),
        (((fcfsProcs sampleProcesses).map Process.rt).sum : ℚ) / (sampleProcesses.length : ℚ),
        (((fcfsProcs sampleProcesses).map Process.wt).sum : ℚ) / (sampleProcesses.length : ℚ)⟩) :=
  ⟨by decide, C5_fcfs_recurrence sampleProcesses (by decide)⟩

/-! ## Metric identities (C7) -/

/-- Every element surviving the sweep is an original process, possibly
with its `queued` flag set. -/
theorem sweepFrom_mem_fst (time : Int) : ∀ (ps : List Process) (n : Nat) (p' : Process),
    p' ∈ (sweepFrom time ps n).1 →
    ∃ p, p ∈ ps ∧ (p' = p ∨ p' = { p with queued := true }) := by
  intro ps
  induction ps with
  | nil => intro n p' hp; cases hp
  | cons hd tl ih =>
    intro n p' hp
    rw [sweepFrom] at hp
    by_cases h1 : hd.queued = true ∨ hd.finished = true
    · rw [if_pos h1] at hp
      rcases List.mem_cons.mp hp with rfl | hp
      · exact ⟨p', List.mem_cons_self _ _, Or.inl rfl⟩
      · obtain ⟨p, hmem, hor⟩ := ih (n + 1) p' hp
        exact ⟨p, List.mem_cons_of_mem _ hmem, hor⟩
    · rw [if_neg h1] at hp
      by_cases h2 : hd.atime ≤ time
      · rw [if_pos h2] at hp
        rcases List.mem_cons.mp hp with rfl | hp
        · exact ⟨hd, List.mem_cons_self _ _, Or.inr rfl⟩
        · obtain ⟨p, hmem, hor⟩ := ih (n + 1) p' hp
          exact ⟨p, List.mem_cons_of_mem _ hmem, hor⟩
      · rw [if_neg h2] at hp
        rcases List.mem_cons.mp hp with rfl | hp
        · exact ⟨p', List.mem_cons_self _ _, Or.inl rfl⟩
        · obtain ⟨p, hmem, hor⟩ := ih (n + 1) p' hp
          exact ⟨p, List.mem_cons_of_mem _ hmem, hor⟩

/-- The per-process invariant of the metric identities: once finished, a
process satisfies the two derived-field equations (and, in RR, has no
remaining burst). -/
def relInv (l : List Process) : Prop :=
  ∀ p ∈ l, p.finished = true →
    p.wt = p.tt - p.bt ∧ p.rt = p.st - p.atime ∧ p.rbt = 0

/-- One SJF step preserves the metric identities for finished processes:
the finishing assignment establishes them by construction. -/
theorem sjfStep_relInv (s : SJFState)
    (h : ∀ p ∈ s.procs, p.finished = true → p.wt = p.tt - p.bt ∧ p.rt = p.st - p.atime) :
    ∀ p ∈ (sjfStep s).procs, p.finished = true →
      p.wt = p.tt - p.bt ∧ p.rt = p.st - p.atime := by
  rw [sjfStep]
  cases hsel : sjfSelect s.time s.procs with
  | none => exact h
  | some ip =>
    intro p hp hf
    rcases List.mem_or_eq_of_mem_set hp with hp | rfl
    · exact h p hp hf
    · constructor <;> simp [finishSJF]

/-- The SJF loop preserves the metric identities for finished processes. -/
theorem sjfLoop_relInv : ∀ (fuel : Nat) (s s' : SJFState), sjfLoop fuel s = some s' →
    (∀ p ∈ s.procs, p.finished = true → p.wt = p.tt - p.bt ∧ p.rt = p.st - p.atime) →
    ∀ p ∈ s'.procs, p.finished = true →
      p.wt = p.tt - p.bt ∧ p.rt = p.st - p.atime := by
  intro fuel
  induction fuel with
  | zero =>
    intro s s' h hrel
    rw [sjfLoop] at h
    by_cases hc : s.fc < s.procs.length
    · rw [if_pos hc] at h; cases h
    · rw [if_neg hc] at h; cases h; exact hrel
  | succ fuel ih =>
    intro s s' h hrel
    rw [sjfLoop] at h
    by_cases hc : s.fc < s.procs.length
    · rw [if_pos hc] at h
      exact ih (sjfStep s) s' h (sjfStep_relInv s hrel)
    · rw [if_neg hc] at h; cases h; exact hrel

/-- The process the RR loop body dispatches (`processes_[curr_index]`). -/
def rrCur (i : Nat) (s : RRState) : Process := s.procs.getD i default

/-- The clock value after the first-dispatch adjustment of lines 177-180. -/
def rrT1 (i : Nat) (s : RRState) : Int :=
  if (rrCur i s).rbt = (rrCur i s).bt then max s.time (rrCur i s).atime else s.time

/-- The start time of the current process after lines 177-180. -/
def rrSt1 (i : Nat) (s : RRState) : Int :=
  if (rrCur i s).rbt = (rrCur i s).bt then max s.time (rrCur i s).atime
  else (rrCur i s).st

/-- The current process as completed by lines 186-198. -/
def rrFinP (i : Nat) (s : RRState) : Process :=
  { rrCur i s with
    st := rrSt1 i s,
    ct := rrT1 i s + (rrCur i s).rbt,
    tt := (rrT1 i s + (rrCur i s).rbt) - (rrCur i s).atime,
    rt := rrSt1 i s - (rrCur i s).atime,
    wt := ((rrT1 i s + (rrCur i s).rbt) - (rrCur i s).atime) - (rrCur i s).bt,
    rbt := 0, finished := true }

/-- Dispatch equation for the preemption branch
(`curr.rbt - quantum > 0`). -/
theorem rrDispatch_stay (q : Int) (i : Nat) (s : RRState)
    (hb : 0 < (rrCur i s).rbt - q) :
    rrDispatch q i s =
      { s with
        procs := s.procs.set i ({ rrCur i s with st := rrSt1 i s, rbt := (rrCur i s).rbt - q }),
        time := rrT1 i s + q } := by
  rw [rrCur] at hb
  simp only [rrDispatch, rrCur, rrT1, rrSt1]
  split_ifs with h1 <;> rfl

/-- Dispatch equation for the completion branch. -/
theorem rrDispatch_finish (q : Int) (i : Nat) (s : RRState)
    (hb : ¬ 0 < (rrCur i s).rbt - q) :
    rrDispatch q i s =
      { s with
        procs := s.procs.set i (rrFinP i s),
        time := rrT1 i s + (rrCur i s).rbt,
        fc := s.fc + 1,
        stt := s.stt + (rrFinP i s).tt,
        srt := s.srt + (rrFinP i s).rt,
        swt := s.swt + (rrFinP i s).wt } := by
  rw [rrCur] at hb
  simp only [rrDispatch, rrCur, rrT1, rrSt1, rrFinP]
  split_ifs with h1 <;> rfl

/-- The dispatch phase preserves the metric-identity invariant. -/
theorem rrDispatch_relInv (q : Int) (hq : 1 ≤ q) (i : Nat) (s : RRState)
    (h : relInv s.procs) : relInv (rrDispatch q i s).procs := by
  by_cases hb : 0 < (rrCur i s).rbt - q
  · rw [rrDispatch_stay q i s hb]
    intro r hr hf
    rcases List.mem_or_eq_of_mem_set hr with hr | rfl
    · exact h r hr hf
    · exfalso
      have hPf : (rrCur i s).finished = true := hf
      rw [rrCur, getD_eq_get?] at hPf hb
      cases hg : s.procs.get? i with
      | none =>
        rw [hg] at hPf
        exact absurd hPf (by decide)
      | some pold =>
        rw [hg] at hPf hb
        obtain ⟨_, _, hrbt0⟩ := h pold (List.get?_mem hg) (by simpa using hPf)
        simp only [Option.getD_some] at hb
        omega
  · rw [rrDispatch_finish q i s hb]
    intro r hr hf
    rcases List.mem_or_eq_of_mem_set hr with hr | rfl
    · exact h r hr hf
    · refine ⟨?_, ?_, ?_⟩ <;> simp [rrFinP]

/-- The sweep phase preserves the metric-identity invariant. -/
theorem rrSweep_relInv (s : RRState) (h : relInv s.procs) :
    relInv (rrSweep s).procs := by
  cases hp : s.procs with
  | nil =>
    have heq : rrSweep s = s := by rw [rrSweep, hp]
    rw [heq]
    exact h
  | cons p0 ps =>
    have hsw : (rrSweep s).procs = p0 :: (sweepFrom s.time ps 1).1 := by
      rw [rrSweep, hp]
    rw [hsw]
    intro r hr hf
    rcases List.mem_cons.mp hr with rfl | hr
    · exact h r (by rw [hp]; exact List.mem_cons_self _ _) hf
    · obtain ⟨porig, hmem, hor⟩ := sweepFrom_mem_fst s.time ps 1 r hr
      have horig := h porig (by rw [hp]; exact List.mem_cons_of_mem _ hmem)
      rcases hor with rfl | rfl
      · exact horig hf
      · exact horig (by simpa using hf)

/-- The recovery phase preserves the metric-identity invariant. -/
theorem rrRecover_relInv (s : RRState) (h : relInv s.procs) :
    relInv (rrRecover s).procs := by
  by_cases hc : s.queue.isEmpty = true
  · cases hp : s.procs with
    | nil =>
      have heq : rrRecover s = s := by rw [rrRecover, if_pos hc, hp]
      rw [heq]; exact h
    | cons p0 ps =>
      cases hrec : recoverFrom ps 1 with
      | none =>
        have heq : rrRecover s = s := by
          rw [rrRecover, if_pos hc, hp]
          simp only [hrec]
        rw [heq]; exact h
      | some r =>
        have heq : rrRecover s = { s with procs := p0 :: r.2, queue := [r.1] } := by
          rw [rrRecover, if_pos hc, hp]
          simp only [hrec]
        rw [heq]
        obtain ⟨k, pk, hk1, hk2, hk3, hk4, hk5⟩ := recoverFrom_some ps 1 r.1 r.2 hrec
        intro x hx hf
        rcases List.mem_cons.mp hx with rfl | hx
        · exact h x (by rw [hp]; exact List.mem_cons_self _ _) hf
        · rw [hk4] at hx
          rcases List.mem_or_eq_of_mem_set hx with hx | rfl
          · exact h x (by rw [hp]; exact List.mem_cons_of_mem _ hx) hf
          · exact h pk (by rw [hp]; exact List.mem_cons_of_mem _ (List.get?_mem hk2))
              (by simpa using hf)
  · have heq : rrRecover s = s := by rw [rrRecover, if_neg hc]
    rw [heq]; exact h

/-- One full RR step preserves the metric-identity invariant
(for a positive quantum). -/
theorem rrStep_relInv (q : Int) (hq : 1 ≤ q) (i : Nat) (s : RRState)
    (h : relInv s.procs) : relInv (rrStep q i s).procs := by
  rw [rrStep]
  apply rrRecover_relInv
  have hs : relInv (rrSweep (rrDispatch q i s)).procs :=
    rrSweep_relInv _ (rrDispatch_relInv q hq i s h)
  rw [rrRequeue]
  by_cases hc : ((rrSweep (rrDispatch q i s)).procs.getD i default).finished = true
  · rw [if_pos hc]; exact hs
  · rw [if_neg hc]; exact hs

/-- Unfolding of one running RR loop iteration with a non-empty queue. -/
theorem rrLoop_succ_cons (q : Int) (fuel : Nat) (s : RRState) (i : Nat) (rest : List Nat)
    (hqu : s.queue = i :: rest) (hc : s.fc < s.procs.length) :
    rrLoop q (fuel + 1) s =
      if i < s.procs.length then rrLoop q fuel (rrStep q i { s with queue := rest })
      else none := by
  rw [rrLoop, if_pos hc, hqu]

/-- A running RR loop iteration with an empty queue fails (empty-queue
`front()` is undefined behaviour). -/
theorem rrLoop_succ_nil (q : Int) (fuel : Nat) (s : RRState)
    (hqu : s.queue = []) (hc : s.fc < s.procs.length) :
    rrLoop q (fuel + 1) s = none := by
  rw [rrLoop, if_pos hc, hqu]

/-- The RR loop returns its state once the finished count reaches the
process count. -/
theorem rrLoop_done (q : Int) (fuel : Nat) (s : RRState)
    (hc : ¬ s.fc < s.procs.length) : rrLoop q fuel s = some s := by
  cases fuel with
  | zero => rw [rrLoop, if_neg hc]
  | succ fuel => rw [rrLoop, if_neg hc]

/-- The RR loop preserves the metric-identity invariant. -/
theorem rrLoop_relInv (q : Int) (hq : 1 ≤ q) :
    ∀ (fuel : Nat) (s s' : RRState), rrLoop q fuel s = some s' →
    relInv s.procs → relInv s'.procs := by
  intro fuel
  induction fuel with
  | zero =>
    intro s s' h hrel
    rw [rrLoop] at h
    by_cases hc : s.fc < s.procs.length
    · rw [if_pos hc] at h; cases h
    · rw [if_neg hc] at h; cases h; exact hrel
  | succ fuel ih =>
    intro s s' h hrel
    by_cases hc : s.fc < s.procs.length
    · cases hqu : s.queue with
      | nil => rw [rrLoop_succ_nil q fuel s hqu hc] at h; cases h
      | cons i rest =>
        rw [rrLoop_succ_cons q fuel s i rest hqu hc] at h
        by_cases hi : i < s.procs.length
        · rw [if_pos hi] at h
          exact ih (rrStep q i { s with queue := rest }) s' h
            (rrStep_relInv q hq i { s with queue := rest } hrel)
        · rw [if_neg hi] at h; cases h
    · rw [rrLoop_done q (fuel + 1) s hc] at h; cases h; exact hrel

/-- C7: in all three engines the derived fields satisfy exactly
`wait = turnaround - burst` and `response = start - arrival`: for FCFS
for every process of the output, and for SJF/RR for every finished
process of any completed run from fresh (all-unfinished) input. -/
theorem C7_metric_identities :
    (∀ (l : List Process) (p : Process), p ∈ fcfsProcs l →
       p.wt = p.tt - p.bt ∧ p.rt = p.st - p.atime) ∧
    (∀ (l : List Process) (fuel : Nat) (s : SJFState) (p : Process),
       (∀ r ∈ l, r.finished = false) → sjfRun fuel l = some s →
       p ∈ s.procs → p.finished = true →
       p.wt = p.tt - p.bt ∧ p.rt = p.st - p.atime) ∧
    (∀ (q : Int) (l : List Process) (fuel : Nat) (s : RRState) (p : Process),
       1 ≤ q → (∀ r ∈ l, r.finished = false) → rrRun q fuel l = some s →
       p ∈ s.procs → p.finished = true →
       p.wt = p.tt - p.bt ∧ p.rt = p.st - p.atime) := by
  refine ⟨?_, ?_, ?_⟩
  · intro l p hp
    have h := fcfsLoop_fields (sortByArrival l) none p (by rwa [fcfsProcs] at hp)
    exact ⟨h.2.2.2, h.2.2.1⟩
  · intro l fuel s p hfresh hrun hp hf
    refine sjfLoop_relInv fuel (sjfInit l) s hrun ?_ p hp hf
    intro r hr hrf
    exact absurd hrf (by simp [hfresh r hr])
  · intro q l fuel s p hq hfresh hrun hp hf
    have hinv : relInv (rrInit l).procs := by
      intro r hr hrf
      have : r ∈ l := by
        rw [rrInit] at hr
        exact (List.mem_insertionSort atLE).mp hr
      exact absurd hrf (by simp [hfresh r this])
    obtain ⟨h1, h2, _⟩ := rrLoop_relInv q hq fuel (rrInit l) s hrun hinv p hp hf
    exact ⟨h1, h2⟩

/-- Witness for `C7_metric_identities`: the sample input run through all
three engines (fuel 100, RR quantum 2). -/
theorem C7_metric_identities_witness :
    (∀ p ∈ fcfsProcs sampleProcesses, p.wt = p.tt - p.bt ∧ p.rt = p.st - p.atime) ∧
    (∃ s, sjfRun 100 sampleProcesses = some s ∧
      ∀ p ∈ s.procs, p.finished = true →
        p.wt = p.tt - p.bt ∧ p.rt = p.st - p.atime) ∧
    (∃ s, rrRun 2 100 sampleProcesses = some s ∧
      ∀ p ∈ s.procs, p.finished = true →
        p.wt = p.tt - p.bt ∧ p.rt = p.st - p.atime) := by
  refine ⟨?_, ?_, ?_⟩
  · intro p hp
    exact C7_metric_identities.1 sampleProcesses p hp
  · cases hrun : sjfRun 100 sampleProcesses with
    | none => exact absurd hrun (by decide)
    | some s =>
      exact ⟨s, rfl, fun p hp hf =>
        C7_metric_identities.2.1 sampleProcesses 100 s p (by decide) hrun hp hf⟩
  · cases hrun : rrRun 2 100 sampleProcesses with
    | none => exact absurd hrun (by decide)
    | some s =>
      exact ⟨s, rfl, fun p hp hf =>
        C7_metric_identities.2.2 2 sampleProcesses 100 s p (by decide) (by decide) hrun hp hf⟩

/-! ## SJF selection analysis (C4) -/

/-- A process the SJF scan may consider: not finished and already
arrived (`arrival_time ≤ clock`). -/
def eligible (time : Int) (p : Process) : Prop :=
  p.finished = false ∧ p.atime ≤ time

instance (time : Int) (p : Process) : Decidable (eligible time p) :=
  decidable_of_iff (p.finished = false ∧ p.atime ≤ time) Iff.rfl

/-- The selection order of the SJF scan: burst time first, arrival time
second. -/
def lexLE (p r : Process) : Prop :=
  p.bt < r.bt ∨ (p.bt = r.bt ∧ p.atime ≤ r.atime)

theorem lexLE_trans {a b c : Process} (h1 : lexLE a b) (h2 : lexLE b c) : lexLE a c := by
  rcases h1 with h1 | ⟨h1, h1'⟩ <;> rcases h2 with h2 | ⟨h2, h2'⟩
  · exact Or.inl (lt_trans h1 h2)
  · exact Or.inl (h2 ▸ h1)
  · exact Or.inl (h1 ▸ h2)
  · exact Or.inr ⟨h1.trans h2, le_trans h1' h2'⟩

theorem lexLE_bt_le {a b : Process} (h : lexLE a b) : a.bt ≤ b.bt := by
  rcases h with h | ⟨h, _⟩
  · exact le_of_lt h
  · exact le_of_eq h

/-- Scan equation: a finished or not-yet-arrived process is skipped. -/
theorem sjfScan_cons_skip (time : Int) (p : Process) (ps : List Process) (n : Nat)
    (thr : Int) (best : Option (Nat × Process))
    (hskip : p.finished = true ∨ time < p.atime) :
    sjfScan time (p :: ps) n thr best = sjfScan time ps (n + 1) thr best :=
  if_pos hskip

/-- Scan equation: with no candidate yet, a burst below the threshold is
taken. -/
theorem sjfScan_cons_none_take (time : Int) (p : Process) (ps : List Process) (n : Nat)
    (thr : Int) (hskip : ¬ (p.finished = true ∨ time < p.atime)) (hlt : p.bt < thr) :
    sjfScan time (p :: ps) n thr none = sjfScan time ps (n + 1) p.bt (some (n, p)) := by
  have h1 : sjfScan time (p :: ps) n thr none
      = if decide (p.bt < thr) = true then sjfScan time ps (n + 1) p.bt (some (n, p))
        else sjfScan time ps (n + 1) thr none := if_neg hskip
  rw [h1, if_pos (decide_eq_true hlt)]

/-- Scan equation: with no candidate yet, a burst at or above the
threshold is not taken. -/
theorem sjfScan_cons_none_keep (time : Int) (p : Process) (ps : List Process) (n : Nat)
    (thr : Int) (hskip : ¬ (p.finished = true ∨ time < p.atime)) (hge : ¬ p.bt < thr) :
    sjfScan time (p :: ps) n thr none = sjfScan time ps (n + 1) thr none := by
  have h1 : sjfScan time (p :: ps) n thr none
      = if decide (p.bt < thr) = true then sjfScan time ps (n + 1) p.bt (some (n, p))
        else sjfScan time ps (n + 1) thr none := if_neg hskip
  rw [h1, if_neg (by simpa using hge)]

/-- Scan equation: a burst tying the threshold displaces the candidate
exactly when its arrival is strictly earlier. -/
theorem sjfScan_cons_tie_take (time : Int) (p : Process) (ps : List Process) (n : Nat)
    (thr : Int) (b : Nat × Process)
    (hskip : ¬ (p.finished = true ∨ time < p.atime)) (hbt : p.bt = thr)
    (hat : p.atime < b.2.atime) :
    sjfScan time (p :: ps) n thr (some b) = sjfScan time ps (n + 1) p.bt (some (n, p)) := by
  have h1 : sjfScan time (p :: ps) n thr (some b)
      = if (if p.bt = thr then decide (p.atime < b.2.atime) else decide (p.bt < thr)) = true
        then sjfScan time ps (n + 1) p.bt (some (n, p))
        else sjfScan time ps (n + 1) thr (some b) := if_neg hskip
  rw [h1, if_pos (by rw [if_pos hbt]; exact decide_eq_true hat)]

/-- Scan equation: a threshold tie with an arrival not strictly earlier
keeps the current candidate. -/
theorem sjfScan_cons_tie_keep (time : Int) (p : Process) (ps : List Process) (n : Nat)
    (thr : Int) (b : Nat × Process)
    (hskip : ¬ (p.finished = true ∨ time < p.atime)) (hbt : p.bt = thr)
    (hat : ¬ p.atime < b.2.atime) :
    sjfScan time (p :: ps) n thr (some b) = sjfScan time ps (n + 1) thr (some b) := by
  have h1 : sjfScan time (p :: ps) n thr (some b)
      = if (if p.bt = thr then decide (p.atime < b.2.atime) else decide (p.bt < thr)) = true
        then sjfScan time ps (n + 1) p.bt (some (n, p))
        else sjfScan time ps (n + 1) thr (some b) := if_neg hskip
  rw [h1, if_neg (by rw [if_pos hbt]; simpa using hat)]

/-- Scan equation: a burst strictly below the threshold (no tie)
displaces the candidate. -/
theorem sjfScan_cons_lt_take (time : Int) (p : Process) (ps : List Process) (n : Nat)
    (thr : Int) (b : Nat × Process)
    (hskip : ¬ (p.finished = true ∨ time < p.atime)) (hbt : ¬ p.bt = thr)
    (hlt : p.bt < thr) :
    sjfScan time (p :: ps) n thr (some b) = sjfScan time ps (n + 1) p.bt (some (n, p)) := by
  have h1 : sjfScan time (p :: ps) n thr (some b)
      = if (if p.bt = thr then decide (p.atime < b.2.atime) else decide (p.bt < thr)) = true
        then sjfScan time ps (n + 1) p.bt (some (n, p))
        else sjfScan time ps (n + 1) thr (some b) := if_neg hskip
  rw [h1, if_pos (by rw [if_neg hbt]; exact decide_eq_true hlt)]

/-- Scan equation: a burst above the threshold (no tie) keeps the
current candidate. -/
theorem sjfScan_cons_gt_keep (time : Int) (p : Process) (ps : List Process) (n : Nat)
    (thr : Int) (b : Nat × Process)
    (hskip : ¬ (p.finished = true ∨ time < p.atime)) (hbt : ¬ p.bt = thr)
    (hge : ¬ p.bt < thr) :
    sjfScan time (p :: ps) n thr (some b) = sjfScan time ps (n + 1) thr (some b) := by
  have h1 : sjfScan time (p :: ps) n thr (some b)
      = if (if p.bt = thr then decide (p.atime < b.2.atime) else decide (p.bt < thr)) = true
        then sjfScan time ps (n + 1) p.bt (some (n, p))
        else sjfScan time ps (n + 1) thr (some b) := if_neg hskip
  rw [h1, if_neg (by rw [if_neg hbt]; simpa using hge)]

/-- A process that is not skipped is eligible. -/
theorem eligible_of_not_skip {time : Int} {p : Process}
    (hskip : ¬ (p.finished = true ∨ time < p.atime)) : eligible time p := by
  push_neg at hskip
  exact ⟨by simpa using hskip.1, hskip.2⟩

/-- Soundness of a successful SJF scan: the returned candidate is
eligible, beats the incoming threshold/candidate, is a lexicographic
(burst, arrival) minimum over every eligible scanned process, and lies
at the returned index. -/
theorem sjfScan_some_spec (time : Int) :
    ∀ (l : List Process) (n : Nat) (thr : Int) (best : Option (Nat × Process))
      (j : Nat) (pj : Process),
      sjfScan time l n thr best = some (j, pj) →
      (∀ k pk, best = some (k, pk) → pk.bt = thr ∧ eligible time pk) →
      eligible time pj ∧
      (best = none → pj.bt < thr) ∧
      (∀ k pk, best = some (k, pk) → lexLE pj pk) ∧
      (∀ r ∈ l, eligible time r → lexLE pj r) ∧
      ((∃ k, j = n + k ∧ l.get? k = some pj) ∨ best = some (j, pj)) := by
  intro l
  induction l with
  | nil =>
    intro n thr best j pj h hb
    have h' : best = some (j, pj) := h
    obtain ⟨hbt, hel⟩ := hb j pj h'
    refine ⟨hel, ?_, ?_, ?_, Or.inr h'⟩
    · intro hn; rw [hn] at h'; cases h'
    · intro k pk hk
      rw [h'] at hk
      cases hk
      exact Or.inr ⟨rfl, le_refl _⟩
    · intro r hr; cases hr
  | cons p ps ih =>
    intro n thr best j pj h hb
    by_cases hskip : p.finished = true ∨ time < p.atime
    · rw [sjfScan_cons_skip time p ps n thr best hskip] at h
      obtain ⟨ha, hbnone, hbsome, hrest, hidx⟩ := ih (n + 1) thr best j pj h hb
      refine ⟨ha, hbnone, hbsome, ?_, ?_⟩
      · intro r hr hel
        rcases List.mem_cons.mp hr with rfl | hr
        · exfalso
          rcases hskip with hs | hs
          · rw [hel.1] at hs; cases hs
          · exact absurd hel.2 (not_le.mpr hs)
        · exact hrest r hr hel
      · rcases hidx with ⟨k, hk1, hk2⟩ | hbb
        · exact Or.inl ⟨k + 1, by omega, by simpa using hk2⟩
        · exact Or.inr hbb
    · have help : eligible time p := eligible_of_not_skip hskip
      cases best with
      | none =>
        by_cases hfnd : p.bt < thr
        · rw [sjfScan_cons_none_take time p ps n thr hskip hfnd] at h
          obtain ⟨ha, _, hbsome, hrest, hidx⟩ := ih (n + 1) p.bt (some (n, p)) j pj h
            (by intro k pk hk; cases hk; exact ⟨rfl, help⟩)
          have hlep : lexLE pj p := hbsome n p rfl
          refine ⟨ha, fun _ => lt_of_le_of_lt (lexLE_bt_le hlep) hfnd, ?_, ?_, ?_⟩
          · intro k pk hk; cases hk
          · intro r hr hel
            rcases List.mem_cons.mp hr with rfl | hr
            · exact hlep
            · exact hrest r hr hel
          · rcases hidx with ⟨k, hk1, hk2⟩ | hbb
            · exact Or.inl ⟨k + 1, by omega, by simpa using hk2⟩
            · cases hbb
              exact Or.inl ⟨0, by omega, rfl⟩
        · rw [sjfScan_cons_none_keep time p ps n thr hskip hfnd] at h
          obtain ⟨ha, hbnone, _, hrest, hidx⟩ := ih (n + 1) thr none j pj h
            (by intro k pk hk; cases hk)
          have hpjlt : pj.bt < thr := hbnone rfl
          refine ⟨ha, fun _ => hpjlt, ?_, ?_, ?_⟩
          · intro k pk hk; cases hk
          · intro r hr hel
            rcases List.mem_cons.mp hr with rfl | hr
            · exact Or.inl (lt_of_lt_of_le hpjlt (not_lt.mp hfnd))
            · exact hrest r hr hel
          · rcases hidx with ⟨k, hk1, hk2⟩ | hbb
            · exact Or.inl ⟨k + 1, by omega, by simpa using hk2⟩
            · cases hbb
      | some b =>
        obtain ⟨hbbt, hbel⟩ := hb b.1 b.2 rfl
        by_cases hbt : p.bt = thr
        · by_cases hat : p.atime < b.2.atime
          · rw [sjfScan_cons_tie_take time p ps n thr b hskip hbt hat] at h
            obtain ⟨ha, _, hbsome, hrest, hidx⟩ := ih (n + 1) p.bt (some (n, p)) j pj h
              (by intro k pk hk; cases hk; exact ⟨rfl, help⟩)
            have hlep : lexLE pj p := hbsome n p rfl
            refine ⟨ha, ?_, ?_, ?_, ?_⟩
            · intro hn; cases hn
            · intro k pk hk
              cases hk
              exact lexLE_trans hlep (Or.inr ⟨hbt.trans hbbt.symm, le_of_lt hat⟩)
            · intro r hr hel
              rcases List.mem_cons.mp hr with rfl | hr
              · exact hlep
              · exact hrest r hr hel
            · rcases hidx with ⟨k, hk1, hk2⟩ | hbb
              · exact Or.inl ⟨k + 1, by omega, by simpa using hk2⟩
              · cases hbb
                exact Or.inl ⟨0, by omega, rfl⟩
          · rw [sjfScan_cons_tie_keep time p ps n thr b hskip hbt hat] at h
            obtain ⟨ha, _, hbsome, hrest, hidx⟩ := ih (n + 1) thr (some b) j pj h hb
            have hleb : lexLE pj b.2 := hbsome b.1 b.2 rfl
            refine ⟨ha, ?_, ?_, ?_, ?_⟩
            · intro hn; cases hn
            · intro k pk hk; cases hk; exact hleb
            · intro r hr hel
              rcases List.mem_cons.mp hr with rfl | hr
              · exact lexLE_trans hleb (Or.inr ⟨hbbt.trans hbt.symm, not_lt.mp hat⟩)
              · exact hrest r hr hel
            · rcases hidx with ⟨k, hk1, hk2⟩ | hbb
              · exact Or.inl ⟨k + 1, by omega, by simpa using hk2⟩
              · exact Or.inr hbb
        · by_cases hfnd : p.bt < thr
          · rw [sjfScan_cons_lt_take time p ps n thr b hskip hbt hfnd] at h
            obtain ⟨ha, _, hbsome, hrest, hidx⟩ := ih (n + 1) p.bt (some (n, p)) j pj h
              (by intro k pk hk; cases hk; exact ⟨rfl, help⟩)
            have hlep : lexLE pj p := hbsome n p rfl
            refine ⟨ha, ?_, ?_, ?_, ?_⟩
            · intro hn; cases hn
            · intro k pk hk
              cases hk
              exact lexLE_trans hlep (Or.inl (hbbt ▸ hfnd))
            · intro r hr hel
              rcases List.mem_cons.mp hr with rfl | hr
              · exact hlep
              · exact hrest r hr hel
            · rcases hidx with ⟨k, hk1, hk2⟩ | hbb
              · exact Or.inl ⟨k + 1, by omega, by simpa using hk2⟩
              · cases hbb
                exact Or.inl ⟨0, by omega, rfl⟩
          · rw [sjfScan_cons_gt_keep time p ps n thr b hskip hbt hfnd] at h
            obtain ⟨ha, _, hbsome, hrest, hidx⟩ := ih (n + 1) thr (some b) j pj h hb
            have hleb : lexLE pj b.2 := hbsome b.1 b.2 rfl
            refine ⟨ha, ?_, ?_, ?_, ?_⟩
            · intro hn; cases hn
            · intro k pk hk; cases hk; exact hleb
            · intro r hr hel
              rcases List.mem_cons.mp hr with rfl | hr
              · refine Or.inl (lt_of_le_of_lt (lexLE_bt_le hleb) ?_)
                rw [hbbt]
                exact lt_of_le_of_ne (not_lt.mp hfnd) (fun hh => hbt hh.symm)
              · exact hrest r hr hel
            · rcases hidx with ⟨k, hk1, hk2⟩ | hbb
              · exact Or.inl ⟨k + 1, by omega, by simpa using hk2⟩
              · exact Or.inr hbb

/-- A failed SJF scan means no candidate came in and every eligible
scanned process has burst at or above the threshold. -/
theorem sjfScan_none_spec (time : Int) :
    ∀ (l : List Process) (n : Nat) (thr : Int) (best : Option (Nat × Process)),
      sjfScan time l n thr best = none →
      best = none ∧ ∀ r ∈ l, eligible time r → thr ≤ r.bt := by
  intro l
  induction l with
  | nil =>
    intro n thr best h
    exact ⟨h, fun r hr => absurd hr (List.not_mem_nil r)⟩
  | cons p ps ih =>
    intro n thr best h
    by_cases hskip : p.finished = true ∨ time < p.atime
    · rw [sjfScan_cons_skip time p ps n thr best hskip] at h
      obtain ⟨hb, hrest⟩ := ih (n + 1) thr best h
      refine ⟨hb, ?_⟩
      intro r hr hel
      rcases List.mem_cons.mp hr with rfl | hr
      · exfalso
        rcases hskip with hs | hs
        · rw [hel.1] at hs; cases hs
        · exact absurd hel.2 (not_le.mpr hs)
      · exact hrest r hr hel
    · cases best with
      | none =>
        by_cases hfnd : p.bt < thr
        · rw [sjfScan_cons_none_take time p ps n thr hskip hfnd] at h
          obtain ⟨hb, _⟩ := ih (n + 1) p.bt (some (n, p)) h
          cases hb
        · rw [sjfScan_cons_none_keep time p ps n thr hskip hfnd] at h
          obtain ⟨_, hrest⟩ := ih (n + 1) thr none h
          refine ⟨rfl, ?_⟩
          intro r hr hel
          rcases List.mem_cons.mp hr with rfl | hr
          · exact not_lt.mp hfnd
          · exact hrest r hr hel
      | some b =>
        by_cases hbt : p.bt = thr
        · by_cases hat : p.atime < b.2.atime
          · rw [sjfScan_cons_tie_take time p ps n thr b hskip hbt hat] at h
            obtain ⟨hb, _⟩ := ih (n + 1) p.bt (some (n, p)) h
            cases hb
          · rw [sjfScan_cons_tie_keep time p ps n thr b hskip hbt hat] at h
            obtain ⟨hb, _⟩ := ih (n + 1) thr (some b) h
            cases hb
        · by_cases hfnd : p.bt < thr
          · rw [sjfScan_cons_lt_take time p ps n thr b hskip hbt hfnd] at h
            obtain ⟨hb, _⟩ := ih (n + 1) p.bt (some (n, p)) h
            cases hb
          · rw [sjfScan_cons_gt_keep time p ps n thr b hskip hbt hfnd] at h
            obtain ⟨hb, _⟩ := ih (n + 1) thr (some b) h
            cases hb

/-- The SJF scan succeeds whenever some eligible process beats the
threshold (or a candidate already exists). -/
theorem sjfScan_progress (time : Int) :
    ∀ (l : List Process) (n : Nat) (thr : Int) (best : Option (Nat × Process)),
      ((∃ p ∈ l, eligible time p ∧ p.bt < thr) ∨ best.isSome = true) →
      (sjfScan time l n thr best).isSome = true := by
  intro l
  induction l with
  | nil =>
    intro n thr best hex
    rcases hex with ⟨p, hp, _⟩ | hb
    · cases hp
    · exact hb
  | cons p ps ih =>
    intro n thr best hex
    by_cases hskip : p.finished = true ∨ time < p.atime
    · rw [sjfScan_cons_skip time p ps n thr best hskip]
      apply ih (n + 1) thr best
      rcases hex with ⟨r, hr, hel, hlt⟩ | hb
      · rcases List.mem_cons.mp hr with rfl | hr
        · exfalso
          rcases hskip with hs | hs
          · rw [hel.1] at hs; cases hs
          · exact absurd hel.2 (not_le.mpr hs)
        · exact Or.inl ⟨r, hr, hel, hlt⟩
      · exact Or.inr hb
    · cases best with
      | none =>
        by_cases hfnd : p.bt < thr
        · rw [sjfScan_cons_none_take time p ps n thr hskip hfnd]
          exact ih (n + 1) p.bt (some (n, p)) (Or.inr rfl)
        · rw [sjfScan_cons_none_keep time p ps n thr hskip hfnd]
          apply ih (n + 1) thr none
          rcases hex with ⟨r, hr, hel, hlt⟩ | hb
          · rcases List.mem_cons.mp hr with rfl | hr
            · exact absurd hlt hfnd
            · exact Or.inl ⟨r, hr, hel, hlt⟩
          · cases hb
      | some b =>
        by_cases hbt : p.bt = thr
        · by_cases hat : p.atime < b.2.atime
          · rw [sjfScan_cons_tie_take time p ps n thr b hskip hbt hat]
            exact ih (n + 1) p.bt (some (n, p)) (Or.inr rfl)
          · rw [sjfScan_cons_tie_keep time p ps n thr b hskip hbt hat]
            exact ih (n + 1) thr (some b) (Or.inr rfl)
        · by_cases hfnd : p.bt < thr
          · rw [sjfScan_cons_lt_take time p ps n thr b hskip hbt hfnd]
            exact ih (n + 1) p.bt (some (n, p)) (Or.inr rfl)
          · rw [sjfScan_cons_gt_keep time p ps n thr b hskip hbt hfnd]
            exact ih (n + 1) thr (some b) (Or.inr rfl)

/-- With no eligible process at all, the scan returns its incoming
candidate. -/
theorem sjfScan_no_elig (time : Int) :
    ∀ (l : List Process) (n : Nat) (thr : Int) (best : Option (Nat × Process)),
      (∀ p ∈ l, ¬ eligible time p) →
      sjfScan time l n thr best = best := by
  intro l
  induction l with
  | nil => intro n thr best _; rfl
  | cons p ps ih =>
    intro n thr best hne
    have hskip : p.finished = true ∨ time < p.atime := by
      have := hne p (List.mem_cons_self _ _)
      rw [eligible] at this
      push_neg at this
      by_cases hf : p.finished = true
      · exact Or.inl hf
      · exact Or.inr (this (by simpa using hf))
    rw [sjfScan_cons_skip time p ps n thr best hskip]
    exact ih (n + 1) thr best (fun r hr => hne r (List.mem_cons_of_mem _ hr))

/-- C4 fails on the code as universally stated: a process whose burst
equals the scan's sentinel `INT_MAX` (2147483647) is eligible yet never
selected — the scan returns nothing and the clock advances by one even
though an eligible process exists. -/
theorem C4_counterexample :
    eligible 0 (mkProcess 0 2147483647) ∧
    (mkProcess 0 2147483647) ∈ [mkProcess 0 2147483647] ∧
    sjfSelect 0 [mkProcess 0 2147483647] = none ∧
    sjfStep (sjfInit [mkProcess 0 2147483647]) =
      { sjfInit [mkProcess 0 2147483647] with time := 1 } := by
  exact ⟨⟨rfl, le_refl 0⟩, List.mem_cons_self _ _, by decide, by decide⟩

/-- C4 (amended): whenever the SJF scan returns a candidate, the
candidate is an eligible process of the list with minimum burst among
all eligible processes, ties broken by earliest arrival; the scan does
return a candidate whenever some eligible process has burst below the
`INT_MAX` sentinel; and when no process is eligible the step advances
the clock by exactly one unit. -/
theorem C4_sjf_selection :
    (∀ (time : Int) (l : List Process) (i : Nat) (p : Process),
       sjfSelect time l = some (i, p) →
       l.get? i = some p ∧ eligible time p ∧
       (∀ r ∈ l, eligible time r →
         p.bt ≤ r.bt ∧ (p.bt = r.bt → p.atime ≤ r.atime))) ∧
    (∀ (time : Int) (l : List Process),
       (∃ p ∈ l, eligible time p ∧ p.bt < INT_MAX) →
       (sjfSelect time l).isSome = true) ∧
    (∀ s : SJFState, (∀ p ∈ s.procs, ¬ eligible s.time p) →
       sjfStep s = { s with time := s.time + 1 }) := by
  refine ⟨?_, ?_, ?_⟩
  · intro time l i p h
    obtain ⟨hel, _, _, hmin, hidx⟩ :=
      sjfScan_some_spec time l 0 INT_MAX none i p h (by intro k pk hk; cases hk)
    refine ⟨?_, hel, ?_⟩
    · rcases hidx with ⟨k, hk1, hk2⟩ | hbb
      · have : i = k := by omega
        rw [this]
        exact hk2
      · cases hbb
    · intro r hr hrel
      have := hmin r hr hrel
      rcases this with hlt | ⟨heq, hle⟩
      · exact ⟨le_of_lt hlt, fun hh => absurd hh (ne_of_lt hlt)⟩
      · exact ⟨le_of_eq heq, fun _ => hle⟩
  · intro time l hex
    exact sjfScan_progress time l 0 INT_MAX none (Or.inl hex)
  · intro s hne
    have hsel : sjfSelect s.time s.procs = none :=
      sjfScan_no_elig s.time s.procs 0 INT_MAX none hne
    rw [sjfStep]
    simp only [hsel]

/-- Witness for `C4_sjf_selection`: at time 0 on [(0,5),(0,3)] the scan
selects index 1 (burst 3) and it is the lexicographic minimum; the
selection exists; and on [(5,2)] at time 0 nothing is eligible and the
step advances the clock to 1. -/
theorem C4_sjf_selection_witness :
    ([mkProcess 0 5, mkProcess 0 3].get? 1 = some (mkProcess 0 3) ∧
     eligible 0 (mkProcess 0 3) ∧
     (∀ r ∈ [mkProcess 0 5, mkProcess 0 3], eligible 0 r →
       (mkProcess 0 3).bt ≤ r.bt ∧
       ((mkProcess 0 3).bt = r.bt → (mkProcess 0 3).atime ≤ r.atime))) ∧
    (sjfSelect 0 [mkProcess 0 5, mkProcess 0 3]).isSome = true ∧
    sjfStep (sjfInit [mkProcess 5 2]) = { sjfInit [mkProcess 5 2] with time := 1 } := by
  refine ⟨C4_sjf_selection.1 0 [mkProcess 0 5, mkProcess 0 3] 1 (mkProcess 0 3) (by decide),
    C4_sjf_selection.2.1 0 [mkProcess 0 5, mkProcess 0 3]
      ⟨mkProcess 0 3, by decide, by decide, by decide⟩,
    C4_sjf_selection.2.2 (sjfInit [mkProcess 5 2]) (by decide)⟩

/-! ## Termination (C8): bookkeeping lemmas -/

/-- `getD` of a present index. -/
theorem getD_of_get? {l : List Process} {n : Nat} {p : Process}
    (h : l.get? n = some p) : l.getD n default = p := by
  rw [getD_eq_get?, h]
  rfl

/-- The sweep keeps the list length. -/
theorem sweepFrom_length (time : Int) : ∀ (ps : List Process) (n : Nat),
    (sweepFrom time ps n).1.length = ps.length := by
  intro ps
  induction ps with
  | nil => intro n; rfl
  | cons hd tl ih =>
    intro n
    rw [sweepFrom]
    by_cases h1 : hd.queued = true ∨ hd.finished = true
    · rw [if_pos h1]; simpa using ih (n + 1)
    · rw [if_neg h1]
      by_cases h2 : hd.atime ≤ time
      · rw [if_pos h2]; simpa using ih (n + 1)
      · rw [if_neg h2]; simpa using ih (n + 1)

/-- The sweep preserves any field unaffected by the `queued` flag,
position by position. -/
theorem sweepFrom_get_proj {α : Type} (time : Int) (f : Process → α)
    (hf : ∀ p : Process, f ({ p with queued := true }) = f p) :
    ∀ (ps : List Process) (n k : Nat),
      ((sweepFrom time ps n).1.get? k).map f = (ps.get? k).map f := by
  intro ps
  induction ps with
  | nil => intro n k; rfl
  | cons hd tl ih =>
    intro n k
    rw [sweepFrom]
    by_cases h1 : hd.queued = true ∨ hd.finished = true
    · rw [if_pos h1]
      cases k with
      | zero => rfl
      | succ kk => simpa using ih (n + 1) kk
    · rw [if_neg h1]
      by_cases h2 : hd.atime ≤ time
      · rw [if_pos h2]
        cases k with
        | zero => simp [hf]
        | succ kk => simpa using ih (n + 1) kk
      · rw [if_neg h2]
        cases k with
        | zero => rfl
        | succ kk => simpa using ih (n + 1) kk

/-- The sweep only raises `queued` flags. -/
theorem sweepFrom_queued_mono (time : Int) : ∀ (ps : List Process) (n k : Nat)
    (pk pk' : Process), ps.get? k = some pk →
    (sweepFrom time ps n).1.get? k = some pk' →
    pk.queued = true → pk'.queued = true := by
  intro ps
  induction ps with
  | nil => intro n k pk pk' h; cases h
  | cons hd tl ih =>
    intro n k pk pk' hget hget' hq
    rw [sweepFrom] at hget'
    by_cases h1 : hd.queued = true ∨ hd.finished = true
    · rw [if_pos h1] at hget'
      cases k with
      | zero =>
        cases hget; cases hget'
        exact hq
      | succ kk => exact ih (n + 1) kk pk pk' (by simpa using hget) (by simpa using hget') hq
    · rw [if_neg h1] at hget'
      by_cases h2 : hd.atime ≤ time
      · rw [if_pos h2] at hget'
        cases k with
        | zero =>
          cases hget; cases hget'
          rfl
        | succ kk => exact ih (n + 1) kk pk pk' (by simpa using hget) (by simpa using hget') hq
      · rw [if_neg h2] at hget'
        cases k with
        | zero =>
          cases hget; cases hget'
          exact hq
        | succ kk => exact ih (n + 1) kk pk pk' (by simpa using hget) (by simpa using hget') hq

/-- Inverse of `sweepFrom_idx_mem_of`: every swept index belongs to an
unqueued, unfinished, arrived process. -/
theorem sweepFrom_idx_spec (time : Int) : ∀ (ps : List Process) (n : Nat) (x : Nat),
    x ∈ (sweepFrom time ps n).2 →
    n ≤ x ∧ ∃ px, ps.get? (x - n) = some px ∧ px.queued = false ∧
      px.finished = false ∧ px.atime ≤ time := by
  intro ps
  induction ps with
  | nil => intro n x h; cases h
  | cons hd tl ih =>
    intro n x h
    rw [sweepFrom] at h
    by_cases h1 : hd.queued = true ∨ hd.finished = true
    · rw [if_pos h1] at h
      obtain ⟨hle, px, hget, hrest⟩ := ih (n + 1) x h
      refine ⟨by omega, px, ?_, hrest⟩
      have : x - n = (x - (n + 1)) + 1 := by omega
      rw [this]
      simpa using hget
    · rw [if_neg h1] at h
      push_neg at h1
      by_cases h2 : hd.atime ≤ time
      · rw [if_pos h2] at h
        rcases List.mem_cons.mp h with rfl | h
        · exact ⟨le_refl x, hd, by simp, by simpa using h1.1, by simpa using h1.2, h2⟩
        · obtain ⟨hle, px, hget, hrest⟩ := ih (n + 1) x h
          refine ⟨by omega, px, ?_, hrest⟩
          have : x - n = (x - (n + 1)) + 1 := by omega
          rw [this]
          simpa using hget
      · rw [if_neg h2] at h
        obtain ⟨hle, px, hget, hrest⟩ := ih (n + 1) x h
        refine ⟨by omega, px, ?_, hrest⟩
        have : x - n = (x - (n + 1)) + 1 := by omega
        rw [this]
        simpa using hget

/-- The swept indexes are strictly ascending, hence without duplicates. -/
theorem sweepFrom_idx_nodup (time : Int) : ∀ (ps : List Process) (n : Nat),
    (sweepFrom time ps n).2.Nodup := by
  intro ps
  induction ps with
  | nil => intro n; exact List.nodup_nil
  | cons hd tl ih =>
    intro n
    rw [sweepFrom]
    by_cases h1 : hd.queued = true ∨ hd.finished = true
    · rw [if_pos h1]; exact ih (n + 1)
    · rw [if_neg h1]
      by_cases h2 : hd.atime ≤ time
      · rw [if_pos h2]
        refine List.Nodup.cons ?_ (ih (n + 1))
        intro hmem
        have := (sweepFrom_idx_spec time tl (n + 1) n hmem).1
        omega
      · rw [if_neg h2]; exact ih (n + 1)

/-- The swept process at a swept index carries the raised flag. -/
theorem sweepFrom_idx_queued (time : Int) : ∀ (ps : List Process) (n : Nat) (x : Nat),
    x ∈ (sweepFrom time ps n).2 →
    ∃ px', (sweepFrom time ps n).1.get? (x - n) = some px' ∧ px'.queued = true := by
  intro ps
  induction ps with
  | nil => intro n x h; cases h
  | cons hd tl ih =>
    intro n x h
    rw [sweepFrom] at h ⊢
    by_cases h1 : hd.queued = true ∨ hd.finished = true
    · rw [if_pos h1] at h ⊢
      obtain ⟨px', hget, hq⟩ := ih (n + 1) x h
      have hle := (sweepFrom_idx_spec time tl (n + 1) x h).1
      refine ⟨px', ?_, hq⟩
      have : x - n = (x - (n + 1)) + 1 := by omega
      rw [this]
      simpa using hget
    · rw [if_neg h1] at h ⊢
      by_cases h2 : hd.atime ≤ time
      · rw [if_pos h2] at h ⊢
        rcases List.mem_cons.mp h with rfl | h
        · exact ⟨{ hd with queued := true }, by simp, rfl⟩
        · obtain ⟨px', hget, hq⟩ := ih (n + 1) x h
          have hle := (sweepFrom_idx_spec time tl (n + 1) x h).1
          refine ⟨px', ?_, hq⟩
          have : x - n = (x - (n + 1)) + 1 := by omega
          rw [this]
          simpa using hget
      · rw [if_neg h2] at h ⊢
        obtain ⟨px', hget, hq⟩ := ih (n + 1) x h
        have hle := (sweepFrom_idx_spec time tl (n + 1) x h).1
        refine ⟨px', ?_, hq⟩
        have : x - n = (x - (n + 1)) + 1 := by omega
        rw [this]
        simpa using hget

/-- The sweep does not change which processes are finished, so the
finished-filter length is preserved. -/
theorem sweepFrom_filter_finished (time : Int) : ∀ (ps : List Process) (n : Nat),
    ((sweepFrom time ps n).1.filter (fun p => p.finished)).length
      = (ps.filter (fun p => p.finished)).length := by
  intro ps
  induction ps with
  | nil => intro n; rfl
  | cons hd tl ih =>
    intro n
    rw [sweepFrom]
    by_cases h1 : hd.queued = true ∨ hd.finished = true
    · rw [if_pos h1]
      simp only [List.filter_cons]
      by_cases hf : hd.finished = true
      · simp [hf, ih (n + 1)]
      · simp [hf, ih (n + 1)]
    · rw [if_neg h1]
      push_neg at h1
      by_cases h2 : hd.atime ≤ time
      · rw [if_pos h2]
        simp only [List.filter_cons]
        simp [h1.2, ih (n + 1)]
      · rw [if_neg h2]
        simp only [List.filter_cons]
        by_cases hf : hd.finished = true
        · simp [hf, ih (n + 1)]
        · simp [hf, ih (n + 1)]

/-- The sweep keeps every remaining burst, as a whole-map equation. -/
theorem sweepFrom_map_rbt (time : Int) : ∀ (ps : List Process) (n : Nat),
    (sweepFrom time ps n).1.map (fun p => p.rbt.toNat)
      = ps.map (fun p => p.rbt.toNat) := by
  intro ps
  induction ps with
  | nil => intro n; rfl
  | cons hd tl ih =>
    intro n
    rw [sweepFrom]
    by_cases h1 : hd.queued = true ∨ hd.finished = true
    · rw [if_pos h1]; simp [ih (n + 1)]
    · rw [if_neg h1]
      by_cases h2 : hd.atime ≤ time
      · rw [if_pos h2]; simp [ih (n + 1)]
      · rw [if_neg h2]; simp [ih (n + 1)]

/-- Replacing one element changes a mapped sum by the difference of the
images. -/
theorem map_sum_set (f : Process → Nat) : ∀ (l : List Process) (i : Nat) (p p' : Process),
    l.get? i = some p →
    ((l.set i p').map f).sum + f p = (l.map f).sum + f p' := by
  intro l
  induction l with
  | nil => intro i p p' h; cases h
  | cons hd tl ih =>
    intro i p p' h
    cases i with
    | zero =>
      cases h
      simp only [List.set, List.map_cons, List.sum_cons]
      omega
    | succ ii =>
      have := ih ii p p' (by simpa using h)
      simp only [List.set, List.map_cons, List.sum_cons]
      omega

/-- Replacing one element with one of equal image keeps a whole-map
equation. -/
theorem map_set_proj {α : Type} (f : Process → α) :
    ∀ (l : List Process) (i : Nat) (p p' : Process),
    l.get? i = some p → f p' = f p → (l.set i p').map f = l.map f := by
  intro l
  induction l with
  | nil => intro i p p' h; cases h
  | cons hd tl ih =>
    intro i p p' h heq
    cases i with
    | zero =>
      cases h
      simp only [List.set, List.map_cons, heq]
    | succ ii =>
      simp only [List.set, List.map_cons, ih ii p p' (by simpa using h) heq]

/-- Marking an unfinished process finished grows the finished-filter
length by one. -/
theorem filter_length_set_tru : ∀ (l : List Process) (i : Nat) (p p' : Process),
    l.get? i = some p → p.finished = false → p'.finished = true →
    ((l.set i p').filter (fun r => r.finished)).length
      = (l.filter (fun r => r.finished)).length + 1 := by
  intro l
  induction l with
  | nil => intro i p p' h; cases h
  | cons hd tl ih =>
    intro i p p' h hp hp'
    cases i with
    | zero =>
      cases h
      simp [List.filter_cons, hp, hp']
    | succ ii =>
      have := ih ii p p' (by simpa using h) hp hp'
      simp only [List.set, List.filter_cons]
      by_cases hf : hd.finished = true
      · simp [hf, this]
      · simp only [Bool.not_eq_true] at hf
        simp [hf, this]

/-- Replacing a process without changing its finished flag keeps the
finished-filter length. -/
theorem filter_length_set_eq : ∀ (l : List Process) (i : Nat) (p p' : Process),
    l.get? i = some p → p'.finished = p.finished →
    ((l.set i p').filter (fun r => r.finished)).length
      = (l.filter (fun r => r.finished)).length := by
  intro l
  induction l with
  | nil => intro i p p' h; cases h
  | cons hd tl ih =>
    intro i p p' h heq
    cases i with
    | zero =>
      cases h
      simp only [List.set, List.filter_cons, heq]
      by_cases hf : hd.finished = true
      · simp [hf]
      · simp [hf]
    | succ ii =>
      have := ih ii p p' (by simpa using h) heq
      simp only [List.set, List.filter_cons]
      by_cases hf : hd.finished = true
      · simp [hf, this]
      · simp only [Bool.not_eq_true] at hf
        simp [hf, this]

/-- A list whose finished-filter is shorter than itself has an
unfinished member. -/
theorem exists_unfinished : ∀ (l : List Process),
    (l.filter (fun p => p.finished)).length < l.length →
    ∃ p ∈ l, p.finished = false := by
  intro l
  induction l with
  | nil => intro h; cases h
  | cons hd tl ih =>
    intro h
    by_cases hf : hd.finished = true
    · rw [List.filter_cons, if_pos (by simpa using hf)] at h
      obtain ⟨p, hp, hpf⟩ := ih (by simpa using h)
      exact ⟨p, List.mem_cons_of_mem _ hp, hpf⟩
    · exact ⟨hd, List.mem_cons_self _ _, by simpa using hf⟩

/-- `get?` after `set` at the same (present) index. -/
theorem get?_set_self : ∀ (l : List Process) (i : Nat) (p p' : Process),
    l.get? i = some p → (l.set i p').get? i = some p' := by
  intro l
  induction l with
  | nil => intro i p p' h; cases h
  | cons hd tl ih =>
    intro i p p' h
    cases i with
    | zero => rfl
    | succ ii => exact ih ii p p' (by simpa using h)

/-- `get?` after `set` at a different index. -/
theorem get?_set_other : ∀ (l : List Process) (i j : Nat) (p' : Process), i ≠ j →
    (l.set i p').get? j = l.get? j := by
  intro l
  induction l with
  | nil => intro i j p' _; cases i <;> rfl
  | cons hd tl ih =>
    intro i j p' hne
    cases i with
    | zero =>
      cases j with
      | zero => exact absurd rfl hne
      | succ jj => rfl
    | succ ii =>
      cases j with
      | zero => rfl
      | succ jj => exact ih ii jj p' (by omega)

/-- Equal `finished`-projections transfer existence across two lists. -/
theorem map_finished_some {l1 l2 : List Process} {k : Nat} {p2 : Process}
    (h : (l1.get? k).map Process.finished = (l2.get? k).map Process.finished)
    (h2 : l2.get? k = some p2) :
    ∃ p1, l1.get? k = some p1 ∧ p1.finished = p2.finished := by
  rw [h2] at h
  cases h1 : l1.get? k with
  | none => rw [h1] at h; cases h
  | some p1 =>
    rw [h1] at h
    simp only [Option.map_some', Option.some.injEq] at h
    exact ⟨p1, rfl, h⟩

/-- The loop invariant of `RRScheduler::Start`: the list is non-empty;
finished processes have no remaining burst while unfinished ones have at
least one unit left; `finished_count` counts the finished processes;
the ready queue holds no duplicates, only in-range non-finished indices,
indices ≥ 1 only when flagged `queued`; index 0 is enqueued while its
process is unfinished; and an empty queue means every index ≥ 1 is
finished. -/
def rrInv (s : RRState) : Prop :=
  0 < s.procs.length ∧
  (∀ p ∈ s.procs, (p.finished = true → p.rbt = 0) ∧ (p.finished = false → 1 ≤ p.rbt)) ∧
  s.fc = (s.procs.filter (fun p => p.finished)).length ∧
  s.queue.Nodup ∧
  (∀ x ∈ s.queue, ∃ px, s.procs.get? x = some px ∧ px.finished = false) ∧
  (∀ x ∈ s.queue, 1 ≤ x → ∃ px, s.procs.get? x = some px ∧ px.queued = true) ∧
  (∀ p0, s.procs.get? 0 = some p0 → p0.finished = false → 0 ∈ s.queue) ∧
  (s.queue = [] → ∀ j pj, 1 ≤ j → s.procs.get? j = some pj → pj.finished = true)

/-- Total remaining burst, the termination measure of the RR loop. -/
def rrMeasure (s : RRState) : Nat := (s.procs.map (fun p => p.rbt.toNat)).sum

/-- What one dispatch does: it rewrites exactly the current slot,
keeps identity fields and the queue, strictly consumes remaining burst,
and either leaves the process unfinished (with burst left and the same
finished count) or completes it (remaining burst 0, count + 1). -/
theorem rrDispatch_spec (q : Int) (hq : 1 ≤ q) (i : Nat) (s : RRState)
    (pcur : Process) (hget : s.procs.get? i = some pcur) (hrbt : 1 ≤ pcur.rbt) :
    ∃ p', (rrDispatch q i s).procs = s.procs.set i p' ∧
      (rrDispatch q i s).queue = s.queue ∧
      p'.atime = pcur.atime ∧ p'.bt = pcur.bt ∧ p'.queued = pcur.queued ∧
      p'.rbt.toNat < pcur.rbt.toNat ∧
      ((p'.finished = pcur.finished ∧ 1 ≤ p'.rbt ∧ (rrDispatch q i s).fc = s.fc) ∨
       (p'.finished = true ∧ p'.rbt = 0 ∧ (rrDispatch q i s).fc = s.fc + 1)) := by
  have hgetD : rrCur i s = pcur := getD_of_get? hget
  by_cases hb : 0 < (rrCur i s).rbt - q
  · rw [rrDispatch_stay q i s hb]
    rw [hgetD] at hb
    refine ⟨{ rrCur i s with st := rrSt1 i s, rbt := (rrCur i s).rbt - q },
      rfl, rfl, ?_, ?_, ?_, ?_, Or.inl ⟨?_, ?_, rfl⟩⟩
    · rw [hgetD]
    · rw [hgetD]
    · rw [hgetD]
    · rw [hgetD]
      show (pcur.rbt - q).toNat < pcur.rbt.toNat
      omega
    · rw [hgetD]
    · rw [hgetD]
      show 1 ≤ pcur.rbt - q
      omega
  · rw [rrDispatch_finish q i s hb]
    rw [hgetD] at hb
    refine ⟨rrFinP i s, rfl, rfl, ?_, ?_, ?_, ?_, Or.inr ⟨rfl, rfl, rfl⟩⟩
    · show (rrCur i s).atime = pcur.atime
      rw [hgetD]
    · show (rrCur i s).bt = pcur.bt
      rw [hgetD]
    · show (rrCur i s).queued = pcur.queued
      rw [hgetD]
    · show (0 : Int).toNat < pcur.rbt.toNat
      omega

/-- One iteration of the RR loop body, started on the popped head of a
queue satisfying the invariant, preserves the invariant and strictly
decreases the total remaining burst. -/
theorem rrStep_inv (q : Int) (hq : 1 ≤ q) (s : RRState) (i : Nat) (rest : List Nat)
    (hInv : rrInv s) (hqu : s.queue = i :: rest) :
    rrInv (rrStep q i { s with queue := rest }) ∧
    rrMeasure (rrStep q i { s with queue := rest }) < rrMeasure s := by
  obtain ⟨hlen, hi2, hfc, hnd, hq5, hq6, hq7, hq8⟩ := hInv
  obtain ⟨pcur, hgetc, hfinc⟩ := hq5 i (by rw [hqu]; exact List.mem_cons_self _ _)
  have hrbtc : 1 ≤ pcur.rbt := (hi2 pcur (List.get?_mem hgetc)).2 hfinc
  rw [hqu] at hnd
  have hinotin : i ∉ rest := (List.nodup_cons.mp hnd).1
  have hndrest : rest.Nodup := (List.nodup_cons.mp hnd).2
  have hiq : 1 ≤ i → pcur.queued = true := by
    intro h1
    obtain ⟨px, hpx, hpxq⟩ := hq6 i (by rw [hqu]; exact List.mem_cons_self _ _) h1
    rw [hgetc] at hpx
    cases hpx
    exact hpxq
  obtain ⟨p', hpr1, hqu1, hat1, hbt1, hqd1, hrbtlt, hcase⟩ :=
    rrDispatch_spec q hq i { s with queue := rest } pcur hgetc hrbtc
  set S1 := rrDispatch q i { s with queue := rest } with hS1def
  have hpr1' : S1.procs = s.procs.set i p' := hpr1
  have hqu1' : S1.queue = rest := hqu1
  obtain ⟨p0, ps, hsplit⟩ : ∃ p0 ps, s.procs.set i p' = p0 :: ps := by
    cases hcs : s.procs.set i p' with
    | nil =>
      have hlen0 : (s.procs.set i p').length = 0 := by rw [hcs]; rfl
      rw [List.length_set] at hlen0
      omega
    | cons a b => exact ⟨a, b, rfl⟩
  set W := sweepFrom S1.time ps 1 with hWdef
  have hS2 : rrSweep S1 = { S1 with procs := p0 :: W.1, queue := rest ++ W.2 } := by
    rw [rrSweep, hpr1', hsplit, hqu1']
  -- pointwise facts linking the swept list to the dispatched list
  have hfin2 : ∀ k, ((p0 :: W.1).get? k).map Process.finished
      = ((p0 :: ps).get? k).map Process.finished := by
    intro k
    cases k with
    | zero => rfl
    | succ kk =>
      simpa using sweepFrom_get_proj S1.time Process.finished (fun p => rfl) ps 1 kk
  have hmono : ∀ x px px', (p0 :: ps).get? x = some px → (p0 :: W.1).get? x = some px' →
      px.queued = true → px'.queued = true := by
    intro x px px' h1 h2 hq'
    cases x with
    | zero =>
      cases h1; cases h2
      exact hq'
    | succ xx =>
      exact sweepFrom_queued_mono S1.time ps 1 xx px px' (by simpa using h1)
        (by simpa using h2) hq'
  have hWspec : ∀ x ∈ W.2, 1 ≤ x ∧ ∃ px, (p0 :: ps).get? x = some px ∧
      px.queued = false ∧ px.finished = false ∧ px.atime ≤ S1.time := by
    intro x hx
    obtain ⟨hge, px, hgetx, hq0, hf0, ha0⟩ := sweepFrom_idx_spec S1.time ps 1 x hx
    obtain ⟨xx, rfl⟩ : ∃ xx, x = xx + 1 := ⟨x - 1, by omega⟩
    refine ⟨hge, px, ?_, hq0, hf0, ha0⟩
    have : ps.get? xx = some px := by
      have hxx : xx + 1 - 1 = xx := by omega
      rw [hxx] at hgetx
      exact hgetx
    simpa using this
  have hWq : ∀ x ∈ W.2, ∃ px', (p0 :: W.1).get? x = some px' ∧ px'.queued = true := by
    intro x hx
    obtain ⟨px', hgetx, hqx⟩ := sweepFrom_idx_queued S1.time ps 1 x hx
    have hge := (sweepFrom_idx_spec S1.time ps 1 x hx).1
    obtain ⟨xx, rfl⟩ : ∃ xx, x = xx + 1 := ⟨x - 1, by omega⟩
    have hxx : xx + 1 - 1 = xx := by omega
    rw [hxx] at hgetx
    exact ⟨px', by simpa using hgetx, hqx⟩
  have hWnd : W.2.Nodup := sweepFrom_idx_nodup S1.time ps 1
  -- facts about earlier queue members
  have hrest5 : ∀ x ∈ rest, ∃ px, (p0 :: ps).get? x = some px ∧ px.finished = false ∧
      (1 ≤ x → px.queued = true) := by
    intro x hx
    have hxi : x ≠ i := fun hh => hinotin (hh ▸ hx)
    obtain ⟨px, hgx, hfx⟩ := hq5 x (by rw [hqu]; exact List.mem_cons_of_mem _ hx)
    refine ⟨px, ?_, hfx, ?_⟩
    · rw [← hsplit, get?_set_other s.procs i x p' (fun hh => hxi hh.symm)]
      exact hgx
    · intro h1
      obtain ⟨py, hgy, hqy⟩ := hq6 x (by rw [hqu]; exact List.mem_cons_of_mem _ hx) h1
      rw [hgx] at hgy
      cases hgy
      exact hqy
  -- rest and W.2 are disjoint, and i is in neither
  have hdisj : ∀ x ∈ rest, x ∉ W.2 := by
    intro x hx hxW
    obtain ⟨hge, px, hgetx, hq0, _, _⟩ := hWspec x hxW
    obtain ⟨py, hgy, _, hqy⟩ := hrest5 x hx
    rw [hgetx] at hgy
    cases hgy
    rw [hqy hge] at hq0
    cases hq0
  have hiW : i ∉ W.2 := by
    intro hxW
    obtain ⟨hge, px, hgetx, hq0, _, _⟩ := hWspec i hxW
    have : (p0 :: ps).get? i = some p' := by
      rw [← hsplit]
      exact get?_set_self s.procs i pcur p' hgetc
    rw [this] at hgetx
    cases hgetx
    rw [hqd1, hiq hge] at hq0
    cases hq0
  -- the finished filter across dispatch and sweep
  have hfilW : ((p0 :: W.1).filter (fun p => p.finished)).length
      = ((p0 :: ps).filter (fun p => p.finished)).length := by
    simp only [List.filter_cons]
    by_cases hf : p0.finished = true
    · simp [hf, hWdef, sweepFrom_filter_finished S1.time ps 1]
    · simp [hf, hWdef, sweepFrom_filter_finished S1.time ps 1]
  -- total remaining burst across dispatch and sweep
  have hmapW : (p0 :: W.1).map (fun p => p.rbt.toNat)
      = (p0 :: ps).map (fun p => p.rbt.toNat) := by
    simp [hWdef, sweepFrom_map_rbt S1.time ps 1]
  have hmeas1 : ((s.procs.set i p').map (fun p => p.rbt.toNat)).sum
      < (s.procs.map (fun p => p.rbt.toNat)).sum := by
    have h1 := map_sum_set (fun p => p.rbt.toNat) s.procs i pcur p' hgetc
    have h2 : ((s.procs.set i p').map (fun p => p.rbt.toNat)).sum + pcur.rbt.toNat
        = (s.procs.map (fun p => p.rbt.toNat)).sum + p'.rbt.toNat := h1
    omega
  -- membership transfer to the final lists
  have hmem2 : ∀ p, p ∈ (p0 :: W.1) →
      ∃ r, r ∈ s.procs.set i p' ∧ (p = r ∨ p = { r with queued := true }) := by
    intro p hp
    rcases List.mem_cons.mp hp with rfl | hp
    · exact ⟨p, by rw [hsplit]; exact List.mem_cons_self _ _, Or.inl rfl⟩
    · obtain ⟨r, hr, hor⟩ := sweepFrom_mem_fst S1.time ps 1 p hp
      exact ⟨r, by rw [hsplit]; exact List.mem_cons_of_mem _ hr, hor⟩
  have hi2new : ∀ r ∈ s.procs.set i p',
      (r.finished = true → r.rbt = 0) ∧ (r.finished = false → 1 ≤ r.rbt) := by
    intro r hr
    rcases List.mem_or_eq_of_mem_set hr with hr | rfl
    · exact hi2 r hr
    · rcases hcase with ⟨hfineq, hrbtge1, _⟩ | ⟨hfintru, hrbt0, _⟩
      · refine ⟨?_, fun _ => hrbtge1⟩
        intro hf
        rw [hfineq, hfinc] at hf
        cases hf
      · refine ⟨fun _ => hrbt0, ?_⟩
        intro hf
        rw [hfintru] at hf
        cases hf
  have hi2W : ∀ p ∈ (p0 :: W.1),
      (p.finished = true → p.rbt = 0) ∧ (p.finished = false → 1 ≤ p.rbt) := by
    intro p hp
    obtain ⟨r, hr, hor⟩ := hmem2 p hp
    have := hi2new r hr
    rcases hor with rfl | rfl
    · exact this
    · exact this
  -- the head p0 at s-level when i is positive
  have hp0pos : 1 ≤ i → (p0 :: ps).get? 0 = s.procs.get? 0 := by
    intro h1
    rw [← hsplit]
    exact get?_set_other s.procs i 0 p' (by omega)
  have hp0zero : i = 0 → p0 = p' := by
    intro h0
    have h1 : (s.procs.set i p').get? 0 = some p' := by
      rw [h0] at hgetc ⊢
      exact get?_set_self s.procs 0 pcur p' hgetc
    rw [hsplit] at h1
    cases h1
    rfl
  -- the (p0 :: W.1)-level finished flag of position 0 matches p0
  rcases hcase with ⟨hfineq, hrbtge1, hfceq⟩ | ⟨hfintru, hrbt0, hfcsucc⟩
  · -- current process not finished: re-enqueued at the tail
    have hfinp' : p'.finished = false := by rw [hfineq]; exact hfinc
    have hget1i : (p0 :: ps).get? i = some p' := by
      rw [← hsplit]
      exact get?_set_self s.procs i pcur p' hgetc
    obtain ⟨pi2, hpi2get, hpi2fin⟩ := map_finished_some (hfin2 i) hget1i
    have hgetD2 : (rrSweep S1).procs.getD i default = pi2 := by
      rw [hS2]
      exact getD_of_get? hpi2get
    have hreq : rrRequeue i (rrSweep S1) =
        { rrSweep S1 with queue := (rrSweep S1).queue ++ [i] } := by
      rw [rrRequeue, if_neg]
      rw [hgetD2, hpi2fin, hfinp']
      simp
    have hrec : rrRecover (rrRequeue i (rrSweep S1)) = rrRequeue i (rrSweep S1) := by
      rw [rrRecover, if_neg]
      rw [hreq, hS2]
      simp
    have hfinal : rrStep q i { s with queue := rest } =
        { S1 with procs := p0 :: W.1, queue := (rest ++ W.2) ++ [i] } := by
      rw [rrStep, ← hS1def, hrec, hreq, hS2]
    rw [hfinal]
    refine ⟨⟨?_, ?_, ?_, ?_, ?_, ?_, ?_, ?_⟩, ?_⟩
    · show 0 < (p0 :: W.1).length
      simp
    · exact hi2W
    · show S1.fc = ((p0 :: W.1).filter (fun p => p.finished)).length
      rw [hfilW, ← hsplit,
        filter_length_set_eq s.procs i pcur p' hgetc (by rw [hfinp', hfinc])]
      rw [← hfc]
      exact hfceq
    · show ((rest ++ W.2) ++ [i]).Nodup
      refine List.Nodup.append (List.Nodup.append hndrest hWnd hdisj)
        (List.nodup_singleton i) ?_
      intro a ha hai
      rw [List.mem_singleton] at hai
      subst hai
      rcases List.mem_append.mp ha with ha | ha
      · exact hinotin ha
      · exact hiW ha
    · intro x hx
      rcases List.mem_append.mp hx with hx | hx
      · rcases List.mem_append.mp hx with hx | hx
        · obtain ⟨px, hgx, hfx, _⟩ := hrest5 x hx
          obtain ⟨px', hgx', hfx'⟩ := map_finished_some (hfin2 x) hgx
          exact ⟨px', hgx', by rw [hfx', hfx]⟩
        · obtain ⟨_, px, hgx, _, hfx, _⟩ := hWspec x hx
          obtain ⟨px', hgx', hfx'⟩ := map_finished_some (hfin2 x) hgx
          exact ⟨px', hgx', by rw [hfx', hfx]⟩
      · rw [List.mem_singleton] at hx
        subst hx
        exact ⟨pi2, hpi2get, by rw [hpi2fin, hfinp']⟩
    · intro x hx h1
      rcases List.mem_append.mp hx with hx | hx
      · rcases List.mem_append.mp hx with hx | hx
        · obtain ⟨px, hgx, _, hqx⟩ := hrest5 x hx
          obtain ⟨px', hgx', _⟩ := map_finished_some (hfin2 x) hgx
          exact ⟨px', hgx', hmono x px px' hgx hgx' (hqx h1)⟩
        · exact hWq x hx
      · rw [List.mem_singleton] at hx
        subst hx
        obtain ⟨px', hgx', _⟩ := map_finished_some (hfin2 x) hget1i
        refine ⟨px', hgx', hmono x p' px' hget1i hgx' ?_⟩
        rw [hqd1]
        exact hiq h1
    · intro r0 hr0 hf0
      by_cases h0 : i = 0
      · subst h0
        exact List.mem_append_right _ (List.mem_singleton.mpr rfl)
      · have h1 : 1 ≤ i := by omega
        have hgs : s.procs.get? 0 = some r0 := by
          rw [← hp0pos h1]
          exact hr0
        have hfr : r0.finished = false := hf0
        have := hq7 r0 hgs hfr
        rw [hqu] at this
        rcases List.mem_cons.mp this with hh | hh
        · exact absurd hh.symm h0
        · exact List.mem_append_left _ (List.mem_append_left _ hh)
    · intro hemp
      simp at hemp
    · show ((p0 :: W.1).map (fun p => p.rbt.toNat)).sum
        < (s.procs.map (fun p => p.rbt.toNat)).sum
      rw [hmapW, ← hsplit]
      exact hmeas1
  · -- current process finished this step: no re-enqueue
    have hget1i : (p0 :: ps).get? i = some p' := by
      rw [← hsplit]
      exact get?_set_self s.procs i pcur p' hgetc
    obtain ⟨pi2, hpi2get, hpi2fin⟩ := map_finished_some (hfin2 i) hget1i
    have hgetD2 : (rrSweep S1).procs.getD i default = pi2 := by
      rw [hS2]
      exact getD_of_get? hpi2get
    have hreq : rrRequeue i (rrSweep S1) = rrSweep S1 := by
      rw [rrRequeue, if_pos]
      rw [hgetD2, hpi2fin, hfintru]
    have hfcW : S1.fc = ((p0 :: W.1).filter (fun p => p.finished)).length := by
      rw [hfilW, ← hsplit,
        filter_length_set_tru s.procs i pcur p' hgetc hfinc hfintru]
      rw [← hfc]
      exact hfcsucc
    have hp0mem : ∀ r0, (p0 :: W.1).get? 0 = some r0 → r0.finished = false → 0 ∈ rest := by
      intro r0 hr0 hf0
      obtain ⟨pz, hgz, hfz⟩ := map_finished_some (hfin2 0).symm hr0
      by_cases h0 : i = 0
      · have he := hp0zero h0
        have hzp : p0 = pz := by simpa using hgz
        have hcontr : r0.finished = true := by rw [← hfz, ← hzp, he, hfintru]
        rw [hf0] at hcontr
        cases hcontr
      · have h1 : 1 ≤ i := by omega
        have hgs : s.procs.get? 0 = some pz := by
          rw [← hp0pos h1]
          exact hgz
        have hfzf : pz.finished = false := by rw [hfz]; exact hf0
        have hmem := hq7 pz hgs hfzf
        rw [hqu] at hmem
        rcases List.mem_cons.mp hmem with hh | hh
        · exact absurd hh.symm h0
        · exact hh
    by_cases hemp : rest ++ W.2 = []
    · obtain ⟨hrnil, hWnil⟩ := List.append_eq_nil.mp hemp
      cases hrecv : recoverFrom W.1 1 with
      | none =>
        have hrec : rrRecover (rrRequeue i (rrSweep S1)) = rrRequeue i (rrSweep S1) := by
          rw [hreq, rrRecover, if_pos, hS2]
          · simp only [hrecv]
          · rw [hS2]
            simp [hemp]
        have hfinal : rrStep q i { s with queue := rest } =
            { S1 with procs := p0 :: W.1, queue := rest ++ W.2 } := by
          rw [rrStep, ← hS1def, hrec, hreq, hS2]
        rw [hfinal]
        refine ⟨⟨?_, ?_, ?_, ?_, ?_, ?_, ?_, ?_⟩, ?_⟩
        · show 0 < (p0 :: W.1).length
          simp
        · exact hi2W
        · exact hfcW
        · show (rest ++ W.2).Nodup
          rw [hemp]
          exact List.nodup_nil
        · intro x hx
          rw [hemp] at hx
          cases hx
        · intro x hx
          rw [hemp] at hx
          cases hx
        · intro r0 hr0 hf0
          have h := hp0mem r0 hr0 hf0
          rw [hrnil] at h
          cases h
        · intro _
          intro j pj h1 hjget
          obtain ⟨jj, rfl⟩ : ∃ jj, j = jj + 1 := ⟨j - 1, by omega⟩
          have : pj ∈ W.1 := List.get?_mem (by simpa using hjget)
          exact recoverFrom_none W.1 1 hrecv pj this
        · show ((p0 :: W.1).map (fun p => p.rbt.toNat)).sum
            < (s.procs.map (fun p => p.rbt.toNat)).sum
          rw [hmapW, ← hsplit]
          exact hmeas1
      | some r =>
        obtain ⟨k, pk, hk1, hk2, hk3, hk4, hk5⟩ := recoverFrom_some W.1 1 r.1 r.2 hrecv
        have hrec : rrRecover (rrRequeue i (rrSweep S1)) =
            { rrSweep S1 with procs := p0 :: r.2, queue := [r.1] } := by
          rw [hreq, rrRecover, if_pos, hS2]
          · simp only [hrecv]
          · rw [hS2]
            simp [hemp]
        have hfinal : rrStep q i { s with queue := rest } =
            { S1 with procs := p0 :: r.2, queue := [r.1] } := by
          rw [rrStep, ← hS1def, hrec, hS2]
        rw [hfinal]
        have hget2k : (p0 :: r.2).get? r.1 = some ({ pk with queued := true }) := by
          rw [hk1, hk4]
          have : (1 + k) = k + 1 := by omega
          rw [this]
          simpa using get?_set_self W.1 k pk ({ pk with queued := true }) hk2
        refine ⟨⟨?_, ?_, ?_, ?_, ?_, ?_, ?_, ?_⟩, ?_⟩
        · show 0 < (p0 :: r.2).length
          simp
        · intro p hp
          rcases List.mem_cons.mp hp with rfl | hp
          · exact hi2W p (List.mem_cons_self _ _)
          · rw [hk4] at hp
            rcases List.mem_or_eq_of_mem_set hp with hp | rfl
            · exact hi2W p (List.mem_cons_of_mem _ hp)
            · exact hi2W pk (List.mem_cons_of_mem _ (List.get?_mem hk2))
        · show S1.fc = ((p0 :: r.2).filter (fun p => p.finished)).length
          have : ((p0 :: r.2).filter (fun p => p.finished)).length
              = ((p0 :: W.1).filter (fun p => p.finished)).length := by
            simp only [List.filter_cons]
            rw [hk4]
            have := filter_length_set_eq W.1 k pk ({ pk with queued := true }) hk2 rfl
            by_cases hf : p0.finished = true
            · simp [hf, this]
            · simp [hf, this]
          rw [this]
          exact hfcW
        · exact List.nodup_singleton r.1
        · intro x hx
          rw [List.mem_singleton] at hx
          subst hx
          exact ⟨{ pk with queued := true }, hget2k, by simpa using hk3⟩
        · intro x hx h1
          rw [List.mem_singleton] at hx
          subst hx
          exact ⟨{ pk with queued := true }, hget2k, rfl⟩
        · intro r0 hr0 hf0
          have hr0' : p0 = r0 := by simpa using hr0
          have h := hp0mem r0 (by rw [← hr0']; rfl) hf0
          rw [hrnil] at h
          cases h
        · intro hsing
          cases hsing
        · show ((p0 :: r.2).map (fun p => p.rbt.toNat)).sum
            < (s.procs.map (fun p => p.rbt.toNat)).sum
          have : (p0 :: r.2).map (fun p => p.rbt.toNat)
              = (p0 :: W.1).map (fun p => p.rbt.toNat) := by
            rw [hk4]
            simp only [List.map_cons]
            rw [map_set_proj (fun p => p.rbt.toNat) W.1 k pk ({ pk with queued := true })
              hk2 rfl]
          rw [this, hmapW, ← hsplit]
          exact hmeas1
    · have hrec : rrRecover (rrRequeue i (rrSweep S1)) = rrRequeue i (rrSweep S1) := by
        rw [hreq, rrRecover, if_neg]
        rw [hS2]
        simpa using hemp
      have hfinal : rrStep q i { s with queue := rest } =
          { S1 with procs := p0 :: W.1, queue := rest ++ W.2 } := by
        rw [rrStep, ← hS1def, hrec, hreq, hS2]
      rw [hfinal]
      refine ⟨⟨?_, ?_, ?_, ?_, ?_, ?_, ?_, ?_⟩, ?_⟩
      · show 0 < (p0 :: W.1).length
        simp
      · exact hi2W
      · exact hfcW
      · exact List.Nodup.append hndrest hWnd hdisj
      · intro x hx
        rcases List.mem_append.mp hx with hx | hx
        · obtain ⟨px, hgx, hfx, _⟩ := hrest5 x hx
          obtain ⟨px', hgx', hfx'⟩ := map_finished_some (hfin2 x) hgx
          exact ⟨px', hgx', by rw [hfx', hfx]⟩
        · obtain ⟨_, px, hgx, _, hfx, _⟩ := hWspec x hx
          obtain ⟨px', hgx', hfx'⟩ := map_finished_some (hfin2 x) hgx
          exact ⟨px', hgx', by rw [hfx', hfx]⟩
      · intro x hx h1
        rcases List.mem_append.mp hx with hx | hx
        · obtain ⟨px, hgx, _, hqx⟩ := hrest5 x hx
          obtain ⟨px', hgx', _⟩ := map_finished_some (hfin2 x) hgx
          exact ⟨px', hgx', hmono x px px' hgx hgx' (hqx h1)⟩
        · exact hWq x hx
      · intro r0 hr0 hf0
        exact List.mem_append_left _ (hp0mem r0 hr0 hf0)
      · intro hz
        exact absurd hz hemp
      · show ((p0 :: W.1).map (fun p => p.rbt.toNat)).sum
          < (s.procs.map (fun p => p.rbt.toNat)).sum
        rw [hmapW, ← hsplit]
        exact hmeas1

/-- A list whose finished-filter is as long as the list consists of
finished processes only. -/
theorem all_finished_of_filter_len : ∀ (l : List Process),
    l.length ≤ (l.filter (fun p => p.finished)).length → ∀ p ∈ l, p.finished = true := by
  intro l
  induction l with
  | nil => intro _ p hp; cases hp
  | cons hd tl ih =>
    intro h p hp
    by_cases hf : hd.finished = true
    · rw [List.filter_cons, if_pos (by simpa using hf)] at h
      rcases List.mem_cons.mp hp with rfl | hp
      · exact hf
      · exact ih (by simpa using h) p hp
    · rw [List.filter_cons, if_neg (by simpa using hf)] at h
      have := List.length_filter_le (fun p => p.finished) tl
      simp only [List.length_cons] at h
      omega

/-- Under the RR invariant an empty ready queue means every process is
finished. -/
theorem rrInv_all_finished (s : RRState) (hInv : rrInv s) (hqe : s.queue = []) :
    ∀ p ∈ s.procs, p.finished = true := by
  obtain ⟨hlen, hi2, hfc, hnd, hq5, hq6, hq7, hq8⟩ := hInv
  intro p hp
  obtain ⟨j, hj⟩ := List.get?_of_mem hp
  cases j with
  | zero =>
    by_contra hne
    have hf : p.finished = false := by
      cases hb : p.finished
      · rfl
      · exact absurd hb hne
    have := hq7 p hj hf
    rw [hqe] at this
    cases this
  | succ jj => exact hq8 hqe (jj + 1) p (by omega) hj

/-- Under the RR invariant the ready queue cannot be empty while
unfinished processes remain. -/
theorem rrInv_queue_ne (s : RRState) (hInv : rrInv s)
    (hc : s.fc < s.procs.length) : s.queue ≠ [] := by
  intro hqe
  have hall := rrInv_all_finished s hInv hqe
  have hfc := hInv.2.2.1
  rw [List.filter_eq_self.mpr hall] at hfc
  omega

/-- Totality of the RR loop: from any invariant state, fuel one beyond
the remaining-burst measure completes the loop with every process
finished. -/
theorem rrLoop_total (q : Int) (hq : 1 ≤ q) :
    ∀ (k : Nat) (s : RRState), rrInv s → rrMeasure s ≤ k →
      ∃ s', rrLoop q (k + 1) s = some s' ∧ ∀ p ∈ s'.procs, p.finished = true := by
  intro k
  induction k with
  | zero =>
    intro s hInv hm
    by_cases hc : s.fc < s.procs.length
    · cases hqu : s.queue with
      | nil => exact absurd hqu (rrInv_queue_ne s hInv hc)
      | cons i rest =>
        obtain ⟨-, hlt⟩ := rrStep_inv q hq s i rest hInv hqu
        exact absurd hlt (by omega)
    · refine ⟨s, rrLoop_done q 1 s hc, ?_⟩
      apply all_finished_of_filter_len
      rw [← hInv.2.2.1]
      omega
  | succ kk ih =>
    intro s hInv hm
    by_cases hc : s.fc < s.procs.length
    · cases hqu : s.queue with
      | nil => exact absurd hqu (rrInv_queue_ne s hInv hc)
      | cons i rest =>
        obtain ⟨pix, hgeti, -⟩ :=
          hInv.2.2.2.2.1 i (by rw [hqu]; exact List.mem_cons_self _ _)
        have hilt : i < s.procs.length := by
          rcases List.get?_eq_some.mp hgeti with ⟨h, -⟩
          exact h
        obtain ⟨hInv', hlt⟩ := rrStep_inv q hq s i rest hInv hqu
        obtain ⟨s', hrun, hall⟩ :=
          ih (rrStep q i { s with queue := rest }) hInv' (by omega)
        refine ⟨s', ?_, hall⟩
        rw [rrLoop_succ_cons q (kk + 1) s i rest hqu hc, if_pos hilt]
        exact hrun
    · refine ⟨s, rrLoop_done q (kk + 2) s hc, ?_⟩
      apply all_finished_of_filter_len
      rw [← hInv.2.2.1]
      omega

/-- A fresh, non-empty input yields an initial RR state satisfying the
invariant. -/
theorem rrInit_inv (l : List Process) (hne : l ≠ [])
    (hfresh : ∀ p ∈ l, p.finished = false ∧ p.queued = false ∧ p.rbt = p.bt ∧ 1 ≤ p.bt) :
    rrInv (rrInit l) := by
  have hperm : ∀ p, p ∈ sortByArrival l ↔ p ∈ l :=
    fun p => (List.perm_insertionSort atLE l).mem_iff
  have hlen : (sortByArrival l).length = l.length :=
    (List.perm_insertionSort atLE l).length_eq
  refine ⟨?_, ?_, ?_, ?_, ?_, ?_, ?_, ?_⟩
  · show 0 < (sortByArrival l).length
    rw [hlen]
    cases l with
    | nil => exact absurd rfl hne
    | cons a b => simp
  · intro p hp
    obtain ⟨hf, hqd, hrbt, hbt⟩ := hfresh p ((hperm p).mp hp)
    constructor
    · intro h
      rw [hf] at h
      cases h
    · intro _
      rw [hrbt]
      exact hbt
  · show 0 = ((sortByArrival l).filter (fun p => p.finished)).length
    have hnil : (sortByArrival l).filter (fun p => p.finished) = [] := by
      rw [List.filter_eq_nil]
      intro p hp
      simp [(hfresh p ((hperm p).mp hp)).1]
    rw [hnil]
    rfl
  · exact List.nodup_singleton 0
  · intro x hx
    have hx' : x ∈ [(0 : Nat)] := hx
    rw [List.mem_singleton] at hx'
    subst hx'
    cases hsp : sortByArrival l with
    | nil =>
      rw [hsp] at hlen
      cases l with
      | nil => exact absurd rfl hne
      | cons a b => cases hlen
    | cons a b =>
      refine ⟨a, ?_, ?_⟩
      · show (sortByArrival l).get? 0 = some a
        rw [hsp]
        rfl
      · have : a ∈ sortByArrival l := by
          rw [hsp]
          exact List.mem_cons_self _ _
        exact (hfresh a ((hperm a).mp this)).1
  · intro x hx h1
    have hx' : x ∈ [(0 : Nat)] := hx
    rw [List.mem_singleton] at hx'
    omega
  · intro p0 hp0 hf0
    exact List.mem_singleton.mpr rfl
  · intro h
    cases h

/-- Totality of `RRScheduler::Start` on fresh positive-burst input, for
any positive quantum. -/
theorem rrRun_total (q : Int) (hq : 1 ≤ q) (l : List Process) (hne : l ≠ [])
    (hfresh : ∀ p ∈ l, p.finished = false ∧ p.queued = false ∧ p.rbt = p.bt ∧ 1 ≤ p.bt) :
    ∃ fuel s', rrRun q fuel l = some s' ∧ ∀ p ∈ s'.procs, p.finished = true := by
  obtain ⟨s', h1, h2⟩ := rrLoop_total q hq (rrMeasure (rrInit l)) (rrInit l)
    (rrInit_inv l hne hfresh) le_rfl
  exact ⟨rrMeasure (rrInit l) + 1, s', h1, h2⟩

/-- The largest arrival time of the input (0 for the empty list), an
upper bound for the idle-wait phase of the SJF loop. -/
def maxArr (l : List Process) : Int := l.foldr (fun p m => max p.atime m) 0

theorem le_maxArr : ∀ (l : List Process), ∀ p ∈ l, p.atime ≤ maxArr l := by
  intro l
  induction l with
  | nil => intro p hp; cases hp
  | cons hd tl ih =>
    intro p hp
    rcases List.mem_cons.mp hp with rfl | hp
    · exact le_max_left _ _
    · exact le_trans (ih p hp) (le_max_right _ _)

/-- Invariant of the SJF loop relative to an arrival bound `A`: every
unfinished process has a positive burst below `INT_MAX` and arrival at
most `A`, the clock is non-negative, and `finished_count` counts the
finished processes. -/
def sjfInv (A : Int) (s : SJFState) : Prop :=
  (∀ p ∈ s.procs, p.finished = false → 1 ≤ p.bt ∧ p.bt < INT_MAX ∧ p.atime ≤ A) ∧
  0 ≤ s.time ∧ s.fc = (s.procs.filter (fun p => p.finished)).length

/-- Termination measure of the SJF loop: unfinished processes weighted
by the idle-wait budget, plus the remaining idle-wait budget. -/
def sjfMeasure (A : Int) (s : SJFState) : Nat :=
  (s.procs.length - s.fc) * (A.toNat + 1) + (A - s.time).toNat

/-- One running SJF iteration preserves the invariant and strictly
decreases the measure: a dispatch finishes a process, and an idle step
moves the clock one unit closer to the next (bounded) arrival. -/
theorem sjfStep_inv (A : Int) (s : SJFState) (hInv : sjfInv A s)
    (hrun : s.fc < s.procs.length) :
    sjfInv A (sjfStep s) ∧ sjfMeasure A (sjfStep s) < sjfMeasure A s := by
  obtain ⟨hmem, htime, hfc⟩ := hInv
  cases hsel : sjfSelect s.time s.procs with
  | none =>
    have hstep : sjfStep s = { s with time := s.time + 1 } := by
      rw [sjfStep, hsel]
    obtain ⟨-, hall⟩ := sjfScan_none_spec s.time s.procs 0 INT_MAX none hsel
    obtain ⟨p, hp, hpf⟩ := exists_unfinished s.procs (hfc ▸ hrun)
    obtain ⟨hbt1, hbtM, hpA⟩ := hmem p hp hpf
    have hplt : s.time < p.atime := by
      by_contra hle
      push_neg at hle
      have hge := hall p hp ⟨hpf, hle⟩
      have hIM : INT_MAX = (2147483647 : Int) := rfl
      rw [hIM] at hge hbtM
      omega
    rw [hstep]
    refine ⟨⟨hmem, ?_, hfc⟩, ?_⟩
    · show (0 : Int) ≤ s.time + 1
      omega
    · show (s.procs.length - s.fc) * (A.toNat + 1) + (A - (s.time + 1)).toNat
        < (s.procs.length - s.fc) * (A.toNat + 1) + (A - s.time).toNat
      have h1 : (A - (s.time + 1)).toNat < (A - s.time).toNat := by omega
      exact Nat.add_lt_add_left h1 _
  | some jp =>
    obtain ⟨j, pj⟩ := jp
    have hspec := sjfScan_some_spec s.time s.procs 0 INT_MAX none j pj hsel
      (fun k pk h => nomatch h)
    obtain ⟨hel, -, -, -, hloc⟩ := hspec
    have hj : s.procs.get? j = some pj := by
      rcases hloc with ⟨k, hjk, hget⟩ | hbad
      · rw [hjk]
        simpa using hget
      · cases hbad
    have hstep : sjfStep s =
        { s with procs := s.procs.set j (finishSJF s.time pj),
                 time := (finishSJF s.time pj).ct,
                 stt := s.stt + (finishSJF s.time pj).tt,
                 srt := s.srt + (finishSJF s.time pj).rt,
                 swt := s.swt + (finishSJF s.time pj).wt,
                 fc := s.fc + 1 } := by
      rw [sjfStep, hsel]
    obtain ⟨hbt1, hbtM, hpA⟩ := hmem pj (List.get?_mem hj) hel.1
    have hct : (finishSJF s.time pj).ct = s.time + pj.bt := rfl
    rw [hstep]
    refine ⟨⟨?_, ?_, ?_⟩, ?_⟩
    · intro p hp hpf
      rcases List.mem_or_eq_of_mem_set hp with hp | rfl
      · exact hmem p hp hpf
      · have hft : (finishSJF s.time pj).finished = true := rfl
        rw [hft] at hpf
        cases hpf
    · show (0 : Int) ≤ (finishSJF s.time pj).ct
      rw [hct]
      omega
    · show s.fc + 1
        = ((s.procs.set j (finishSJF s.time pj)).filter (fun p => p.finished)).length
      rw [filter_length_set_tru s.procs j pj (finishSJF s.time pj) hj hel.1 rfl, ← hfc]
    · show ((s.procs.set j (finishSJF s.time pj)).length - (s.fc + 1)) * (A.toNat + 1)
          + (A - (finishSJF s.time pj).ct).toNat
        < (s.procs.length - s.fc) * (A.toNat + 1) + (A - s.time).toNat
      rw [List.length_set]
      have h1 : (A - (finishSJF s.time pj).ct).toNat ≤ A.toNat := by
        rw [hct]
        omega
      have h2 : (s.procs.length - (s.fc + 1)) + 1 = s.procs.length - s.fc := by omega
      calc (s.procs.length - (s.fc + 1)) * (A.toNat + 1)
            + (A - (finishSJF s.time pj).ct).toNat
          ≤ (s.procs.length - (s.fc + 1)) * (A.toNat + 1) + A.toNat :=
            Nat.add_le_add_left h1 _
        _ < (s.procs.length - (s.fc + 1)) * (A.toNat + 1) + (A.toNat + 1) :=
            Nat.add_lt_add_left (Nat.lt_succ_self _) _
        _ = ((s.procs.length - (s.fc + 1)) + 1) * (A.toNat + 1) :=
            (Nat.succ_mul _ _).symm
        _ = (s.procs.length - s.fc) * (A.toNat + 1) := by rw [h2]
        _ ≤ (s.procs.length - s.fc) * (A.toNat + 1) + (A - s.time).toNat :=
            Nat.le_add_right _ _

/-- Totality of the SJF loop from any invariant state. -/
theorem sjfLoop_total (A : Int) :
    ∀ (k : Nat) (s : SJFState), sjfInv A s → sjfMeasure A s ≤ k →
      ∃ s', sjfLoop (k + 1) s = some s' ∧ ∀ p ∈ s'.procs, p.finished = true := by
  intro k
  induction k with
  | zero =>
    intro s hInv hm
    by_cases hc : s.fc < s.procs.length
    · obtain ⟨-, hlt⟩ := sjfStep_inv A s hInv hc
      exact absurd hlt (by omega)
    · refine ⟨s, ?_, ?_⟩
      · rw [sjfLoop, if_neg hc]
      · apply all_finished_of_filter_len
        rw [← hInv.2.2]
        omega
  | succ kk ih =>
    intro s hInv hm
    by_cases hc : s.fc < s.procs.length
    · obtain ⟨hInv', hlt⟩ := sjfStep_inv A s hInv hc
      obtain ⟨s', hrun, hall⟩ := ih (sjfStep s) hInv' (by omega)
      refine ⟨s', ?_, hall⟩
      rw [sjfLoop, if_pos hc]
      exact hrun
    · refine ⟨s, ?_, ?_⟩
      · rw [sjfLoop, if_neg hc]
      · apply all_finished_of_filter_len
        rw [← hInv.2.2]
        omega

/-- A fresh input with bursts in `[1, INT_MAX)` yields an initial SJF
state satisfying the invariant at bound `maxArr l`. -/
theorem sjfInit_inv (l : List Process)
    (hfresh : ∀ p ∈ l, p.finished = false ∧ 1 ≤ p.bt ∧ p.bt < INT_MAX) :
    sjfInv (maxArr l) (sjfInit l) := by
  refine ⟨?_, le_refl 0, ?_⟩
  · intro p hp hpf
    obtain ⟨-, hbt, hbtM⟩ := hfresh p hp
    exact ⟨hbt, hbtM, le_maxArr l p hp⟩
  · show 0 = (l.filter (fun p => p.finished)).length
    have hnil : l.filter (fun p => p.finished) = [] := by
      rw [List.filter_eq_nil_iff]
      intro p hp
      simp [(hfresh p hp).1]
    rw [hnil]
    rfl

/-- Totality of `SJFScheduler::Start` on fresh input whose bursts are
positive and below `INT_MAX`. -/
theorem sjfRun_total (l : List Process)
    (hfresh : ∀ p ∈ l, p.finished = false ∧ 1 ≤ p.bt ∧ p.bt < INT_MAX) :
    ∃ fuel s', sjfRun fuel l = some s' ∧ ∀ p ∈ s'.procs, p.finished = true := by
  obtain ⟨s', h1, h2⟩ := sjfLoop_total (maxArr l) (sjfMeasure (maxArr l) (sjfInit l))
    (sjfInit l) (sjfInit_inv l hfresh) le_rfl
  exact ⟨sjfMeasure (maxArr l) (sjfInit l) + 1, s', h1, h2⟩

/-- The SJF scan never selects a process whose burst equals `INT_MAX`:
on the one-process list with burst `INT_MAX` it always comes back
empty. -/
theorem sjfSelect_intmax (time : Int) :
    sjfSelect time [mkProcess 0 INT_MAX] = none := by
  by_cases h : (mkProcess 0 INT_MAX).finished = true ∨ time < (mkProcess 0 INT_MAX).atime
  · rw [sjfSelect, sjfScan_cons_skip time _ _ 0 INT_MAX none h]
    rfl
  · rw [sjfSelect,
      sjfScan_cons_none_keep time _ _ 0 INT_MAX h (lt_irrefl INT_MAX)]
    rfl

/-- On the one-process list with burst `INT_MAX` the SJF loop only ever
idles: it exhausts any fuel with the process unfinished. -/
theorem sjfLoop_intmax : ∀ (fuel : Nat) (time stt srt swt : Int),
    sjfLoop fuel ⟨[mkProcess 0 INT_MAX], time, 0, stt, srt, swt⟩ = none := by
  intro fuel
  induction fuel with
  | zero =>
    intro time stt srt swt
    rfl
  | succ fuel ih =>
    intro time stt srt swt
    have h1 : sjfSelect (⟨[mkProcess 0 INT_MAX], time, 0, stt, srt, swt⟩ : SJFState).time
        (⟨[mkProcess 0 INT_MAX], time, 0, stt, srt, swt⟩ : SJFState).procs = none :=
      sjfSelect_intmax time
    have hstep : sjfStep ⟨[mkProcess 0 INT_MAX], time, 0, stt, srt, swt⟩
        = ⟨[mkProcess 0 INT_MAX], time + 1, 0, stt, srt, swt⟩ := by
      rw [sjfStep, h1]
    rw [sjfLoop, if_pos]
    · rw [hstep]
      exact ih (time + 1) stt srt swt
    · exact Nat.zero_lt_one

/-- C8: counterexample.  The claim promises termination for every
non-empty input whose bursts are positive, but the single process with
arrival 0 and burst `INT_MAX` (2147483647, a positive burst) makes the
SJF loop idle forever: the scan's strict `bt < bt_threshold` comparison
against the `INT_MAX` sentinel never selects it, so `finished_count`
never advances and no amount of fuel completes the run. -/
theorem C8_counterexample :
    1 ≤ (mkProcess 0 INT_MAX).bt ∧ 0 ≤ (mkProcess 0 INT_MAX).atime ∧
    ∀ fuel : Nat, sjfRun fuel [mkProcess 0 INT_MAX] = none := by
  refine ⟨by decide, by decide, ?_⟩
  intro fuel
  exact sjfLoop_intmax fuel 0 0 0 0

/-- C8 (amended): termination of the engines.  For every non-empty
fresh input (no process finished or queued, `rbt = bt`, bursts
positive) the FCFS pass is a total single sweep returning one record
per process, the RR loop terminates with all processes finished for
every quantum ≥ 1, and the SJF loop terminates with all processes
finished provided additionally every burst is below the scan's
`INT_MAX` threshold sentinel. -/
theorem C8_termination (l : List Process) (q : Int) (hq : 1 ≤ q) (hne : l ≠ [])
    (hfresh : ∀ p ∈ l, p.finished = false ∧ p.queued = false ∧ p.rbt = p.bt ∧ 1 ≤ p.bt) :
    (fcfsProcs l).length = l.length ∧
    (∃ fuel s', rrRun q fuel l = some s' ∧ ∀ p ∈ s'.procs, p.finished = true) ∧
    ((∀ p ∈ l, p.bt < INT_MAX) →
      ∃ fuel s', sjfRun fuel l = some s' ∧ ∀ p ∈ s'.procs, p.finished = true) := by
  refine ⟨?_, ?_, ?_⟩
  · have h1 := congrArg List.length (fcfsLoop_map_atime (sortByArrival l) none)
    rw [List.length_map, List.length_map] at h1
    rw [fcfsProcs, h1]
    exact (List.perm_insertionSort atLE l).length_eq
  · exact rrRun_total q hq l hne hfresh
  · intro hsjf
    exact sjfRun_total l (fun p hp => ⟨(hfresh p hp).1, (hfresh p hp).2.2.2, hsjf p hp⟩)

/-- C8 witness: the amended termination theorem at the worked example
input with quantum 2. -/
theorem C8_termination_witness :
    (fcfsProcs sampleProcesses).length = sampleProcesses.length ∧
    (∃ fuel s', rrRun 2 fuel sampleProcesses = some s' ∧
      ∀ p ∈ s'.procs, p.finished = true) ∧
    ((∀ p ∈ sampleProcesses, p.bt < INT_MAX) →
      ∃ fuel s', sjfRun fuel sampleProcesses = some s' ∧
        ∀ p ∈ s'.procs, p.finished = true) :=
  C8_termination sampleProcesses 2 (by decide) (by decide) (by decide)
